import Mathlib

/-!
Verification development for the RAG pipeline of this repository.

The TypeScript sources are shallowly embedded as executable Lean
definitions.  JavaScript strings are modelled as `List Char` (with
`String` wrappers where the source-level API uses strings), JavaScript
numbers used for similarity scores as `ℚ`, fallible asynchronous calls
(fetch, database queries, the LangChain splitter) as `Except String`
oracles passed in as parameters, and `try`/`catch` blocks as matches on
the `Except` value of the embedded `try` body.

Embedded modules:
  * `lib/utils/text-cleaning.ts`  (`cleanTextForEmbedding`, `cleanQueryText`)
  * `lib/utils/text-chunking.ts`  (`chunkText`)
  * `lib/ai/embeddings.ts`        (`generateEmbeddings`)
  * `app/(chat)/api/chat/query-rewriter.ts` (`rewriteQuery`)
  * `app/(chat)/api/chat/route.ts` retrieval block of `POST` (lines 171-258)
  * the module defining `retrieveRelevantContext`
  * `app/(chat)/api/documents/upload/route.ts` indexing phase of `POST`
-/

/-! ## Character classes used by the regular expressions of the sources -/

/-- Characters of the JavaScript regex class `[ \t]` (space and tab). -/
def isSpaceTab (c : Char) : Bool := c = ' ' || c = '\t'

/-- The newline character, as matched by `\n` in the source regexes. -/
def isNewline (c : Char) : Bool := c = '\n'

/-- Characters of the JavaScript regex class `\s` (whitespace), the class
used by `String.prototype.trim` as well: space, tab, line terminators and
the Unicode space separators. -/
def isJsWs (c : Char) : Bool :=
  c = ' ' || c = '\t' || c = '\n' || c = '\r' || c = '\x0b' || c = '\x0c' ||
  c = ' ' || c = ' ' || (0x2000 ≤ c.toNat && c.toNat ≤ 0x200A) ||
  c = ' ' || c = ' ' || c = ' ' || c = ' ' ||
  c = '　' || c = '﻿'

/-- Characters removed by step 2 of `cleanTextForEmbedding`:
the regex class `[\x00-\x08\x0B-\x0C\x0E-\x1F\x7F]` (control characters
except newline, tab and carriage return). -/
def isRemovedControl (c : Char) : Bool :=
  (c.toNat ≤ 0x08) || c = '\x0b' || c = '\x0c' ||
  (0x0E ≤ c.toNat && c.toNat ≤ 0x1F) || c = '\x7f'

/-- Characters removed by step 3 of `cleanTextForEmbedding`:
the regex class `[​-‍﻿]` (zero-width characters). -/
def isZeroWidth (c : Char) : Bool :=
  (0x200B ≤ c.toNat && c.toNat ≤ 0x200D) || c = '﻿'

/-- Characters removed by step 7 of `cleanTextForEmbedding`.  The set is
exactly the set of distinct characters that occur in the character class
of the `// Remove decorative symbols` replacement in the source file
(the file stores the class in a mojibake encoding; these are the
characters actually present in it, by code point). -/
def isDecorative (c : Char) : Bool :=
  c = 'в' || c = 'Җ' || c = '»' || c = 'ҳ' ||
  c = '…' || c = 'Ҷ' || c = '—' || c = 'Ү' ||
  c = 'Ӣ' || c = 'Ҹ' || c = '–' || c = 'і' ||
  c = 'І' || c = 'Ҫ' || c = 'ј' || c = ' ' ||
  c = 'Ў'

/-- A character deleted outright by some step of `cleanTextForEmbedding`. -/
def isDeleted (c : Char) : Bool :=
  isRemovedControl c || isZeroWidth c || isDecorative c

/-! ## JavaScript `String.prototype.trim` -/

/-- `trimStart`: drop leading JavaScript whitespace. -/
def jsTrimLeft (l : List Char) : List Char := l.dropWhile isJsWs

/-- `trimEnd`: drop trailing JavaScript whitespace. -/
def jsTrimRight (l : List Char) : List Char :=
  (l.reverse.dropWhile isJsWs).reverse

/-- JavaScript `String.prototype.trim` on the character-list model. -/
def jsTrim (l : List Char) : List Char := jsTrimRight (jsTrimLeft l)

/-- JavaScript `String.prototype.trim` on `String`. -/
def jsTrimStr (s : String) : String := ⟨jsTrim s.data⟩

/-! ## Regex global replacement over maximal runs

Every `replace` call in the text cleaner rewrites the maximal runs of a
single character class (`[ \t]+`, `\n{3,}`, `\.{4,}`, ..., and
`\n\s*\n\s*\n` which rewrites the maximal `\s`-runs containing at least
three newlines).  `mapRuns q g` applies `g` to every maximal run of
characters satisfying `q` and keeps every other character; each concrete
replacement below is an instance. -/

/-- Worker for `mapRuns`: `pending` is the (possibly empty) current run of
`q`-characters read so far and not yet emitted. -/
def mapRunsAux (q : Char → Bool) (g : List Char → List Char) :
    List Char → List Char → List Char
  | [], pending => if pending.isEmpty then [] else g pending
  | c :: cs, pending =>
    if q c then mapRunsAux q g cs (pending ++ [c])
    else (if pending.isEmpty then [] else g pending) ++ c :: mapRunsAux q g cs []

/-- Apply `g` to every maximal nonempty run of `q`-characters of the list,
leaving all other characters in place. -/
def mapRuns (q : Char → Bool) (g : List Char → List Char) (l : List Char) :
    List Char :=
  mapRunsAux q g l []

/-- The list of maximal nonempty runs of `q`-characters, in order. -/
def runsOfAux (q : Char → Bool) : List Char → List Char → List (List Char)
  | [], pending => if pending.isEmpty then [] else [pending]
  | c :: cs, pending =>
    if q c then runsOfAux q cs (pending ++ [c])
    else (if pending.isEmpty then [] else [pending]) ++ runsOfAux q cs []

/-- The maximal nonempty `q`-runs of a list. -/
def runsOf (q : Char → Bool) (l : List Char) : List (List Char) :=
  runsOfAux q l []

/-! ## The replacement functions of the individual cleaning steps -/

/-- `/[ \t]+/g → " "`: every run of spaces and tabs becomes one space. -/
def stRep (_run : List Char) : List Char := [' ']

/-- `/\n{3,}/g → "\n\n"`: runs of three or more newlines become two. -/
def nl3Rep (run : List Char) : List Char :=
  if 3 ≤ run.length then ['\n', '\n'] else run

/-- `/\.{4,}/g → "..."`: runs of four or more periods become three. -/
def dotsRep (run : List Char) : List Char :=
  if 4 ≤ run.length then ['.', '.', '.'] else run

/-- `-{3,} → "--"` (global): runs of three or more dashes become two. -/
def dashRep (run : List Char) : List Char :=
  if 3 ≤ run.length then ['-', '-'] else run

/-- `/_{3,}/g → "__"`: runs of three or more underscores become two. -/
def undRep (run : List Char) : List Char :=
  if 3 ≤ run.length then ['_', '_'] else run

/-- The part of a whitespace run strictly after its last newline. -/
def afterLastNl (run : List Char) : List Char :=
  (run.reverse.takeWhile (fun c => !(isNewline c))).reverse

/-- `/\n\s*\n\s*\n/g → "\n\n"`: inside a maximal `\s`-run holding at least
three newlines the regex matches from the first to the last newline of
the run (the greedy backtracking match), so that stretch becomes two
newlines while the whitespace before the first and after the last
newline of the run survives. -/
def wsNlRep (run : List Char) : List Char :=
  if 3 ≤ (run.filter isNewline).length then
    run.takeWhile (fun c => !(isNewline c)) ++ '\n' :: '\n' :: afterLastNl run
  else run

/-- `/[?!]{3,}/g → match.slice(0, 2)` from `cleanQueryText`: a run of three
or more question or exclamation marks keeps only its first two characters. -/
def qbRep (run : List Char) : List Char :=
  if 3 ≤ run.length then run.take 2 else run

/-- Characters of the class `[?!]`. -/
def isQuestionBang (c : Char) : Bool := c = '?' || c = '!'

/-! ## Line splitting and joining (`split("\n")` / `join("\n")`) -/

/-- JavaScript `split("\n")` on the character-list model: the (always
nonempty) list of newline-separated line segments, in order. -/
def linesOf : List Char → List (List Char)
  | [] => [[]]
  | c :: cs =>
    if isNewline c then [] :: linesOf cs
    else
      match linesOf cs with
      | [] => [[c]]
      | li :: rest => (c :: li) :: rest

/-- JavaScript `join("\n")` on the character-list model. -/
def joinLines : List (List Char) → List Char
  | [] => []
  | [x] => x
  | x :: xs => x ++ '\n' :: joinLines xs

/-! ## `cleanTextForEmbedding` and `cleanQueryText`
(embedding of `lib/utils/text-cleaning.ts`) -/

/-- The eleven replacement steps of `cleanTextForEmbedding`, in source
order, on the character-list model:
1. `[ \t]+ → " "`, 2. `\n{3,} → "\n\n"`, 3. `[ \t]+ → " "` again,
4. strip the control-character class, 5. strip the zero-width class,
6. collapse `\.{4,}`, `-{3,}`, `_{3,}`, 7. strip the decorative class,
8. normalize quotes (the character classes in the file contain exactly
`"` resp. `'`, so each of the two replaces a character by itself),
9. trim every line, 10. `\n\s*\n\s*\n → "\n\n"`, 11. overall trim. -/
def cleanChars (text : List Char) : List Char :=
  let c1 := mapRuns isSpaceTab stRep text
  let c2 := mapRuns isNewline nl3Rep c1
  let c3 := mapRuns isSpaceTab stRep c2
  let c4 := c3.filter (fun c => !(isRemovedControl c))
  let c5 := c4.filter (fun c => !(isZeroWidth c))
  let c6 := mapRuns (fun c => c = '.') dotsRep c5
  let c7 := mapRuns (fun c => c = '-') dashRep c6
  let c8 := mapRuns (fun c => c = '_') undRep c7
  let c9 := c8.filter (fun c => !(isDecorative c))
  let c10 := c9.map (fun c => if c = '"' then '"' else c)
  let c11 := c10.map (fun c => if c = '\'' then '\'' else c)
  let c12 := joinLines ((linesOf c11).map jsTrim)
  let c13 := mapRuns isJsWs wsNlRep c12
  jsTrim c13

/-- `cleanTextForEmbedding` from `lib/utils/text-cleaning.ts`: empty input
is returned unchanged, otherwise the eleven replacement steps run. -/
def cleanTextForEmbedding (text : String) : String :=
  if text = "" then "" else ⟨cleanChars text.data⟩

/-- `cleanQueryText` from `lib/utils/text-cleaning.ts`: cleans for
embedding, then collapses runs of three or more `?`/`!` to their first
two characters. -/
def cleanQueryText (text : String) : String :=
  if text = "" then ""
  else ⟨mapRuns isQuestionBang qbRep (cleanTextForEmbedding text).data⟩

/-! ## Data model

`ChatMessage` with its typed parts is the external message model consumed
by the pipeline; `RetrievedDocument`, `SearchResultRow` and the search
parameters mirror the shapes used by `searchSimilarDocuments` and the
retrieval code.  Similarity scores (JavaScript numbers) are modelled as
rationals. -/

/-- One typed part of a chat message. -/
inductive MessagePart where
  | text (text : String)
  | file (mediaType url name : String)
  | other (kind : String)
deriving DecidableEq

/-- The external chat-message model: id, role, ordered typed parts. -/
structure ChatMessage where
  id : String
  role : String
  parts : List MessagePart
deriving DecidableEq

/-- Ephemeral query-time retrieval result (`RetrievedDocument`). -/
structure RetrievedDocument where
  documentId : String
  documentTitle : String
  content : String
  similarity : ℚ
  chunkIndex : Nat
deriving DecidableEq

/-- One row returned by the external `searchSimilarDocuments` collaborator.
A SQL `NULL` title is modelled as the empty string (both are falsy where
the sources test the title). -/
structure SearchResultRow where
  documentId : String
  documentTitle : String
  content : String
  similarity : ℚ
  chunkIndex : Nat
deriving DecidableEq

/-- The argument object of `searchSimilarDocuments`. -/
structure SearchParams where
  embedding : List ℚ
  limit : Nat
  knowledgeBaseId : Option String
  similarityThreshold : ℚ
  userId : String

/-! ## Text chunking (embedding of `lib/utils/text-chunking.ts`)

`RecursiveCharacterTextSplitter.splitText` is an external library call
and is modelled as an oracle producing the raw string chunks (or
throwing).  The index-assignment loop below `splitText` is embedded
verbatim. -/

/-- A chunk with its best-effort character indices. -/
structure TextChunk where
  text : String
  startIndex : Nat
  endIndex : Nat
deriving DecidableEq

/-- The `{maxChunkSize, overlap}` options object. -/
structure ChunkOptions where
  maxChunkSize : Nat
  overlap : Nat
deriving DecidableEq

/-- Does `pat` occur at the head of `l`? -/
def headMatch : List Char → List Char → Bool
  | [], _ => true
  | _ :: _, [] => false
  | p :: ps, c :: cs => p = c && headMatch ps cs

/-- Worker for `jsIndexOf`: try every position of `rest` (whose first
character sits at index `i` of the full string), accepting only matches
at positions `≥ start`. -/
def idxSearch (pat : List Char) (start : Nat) : List Char → Nat → Option Nat
  | [], i => if start ≤ i && headMatch pat [] then some i else none
  | c :: cs, i =>
    if start ≤ i && headMatch pat (c :: cs) then some i
    else idxSearch pat start cs (i + 1)

/-- JavaScript `s.indexOf(pat, start)`, with `none` for `-1`. -/
def jsIndexOf (s pat : List Char) (start : Nat) : Option Nat :=
  idxSearch pat start s 0

/-- The index-assignment loop of `chunkText`: for each raw splitter chunk,
trim it, drop it if empty, locate it in the original text starting at
`currentIndex` (JavaScript `indexOf`), and otherwise fall back to the
advancing cursor. -/
def chunkLoop (text : List Char) (currentIndex : Nat) :
    List String → List TextChunk
  | [] => []
  | ct :: rest =>
    let trimmedText := jsTrim ct.data
    if trimmedText.length = 0 then chunkLoop text currentIndex rest
    else
      match jsIndexOf text trimmedText currentIndex with
      | some startIndex =>
        let endIndex := startIndex + trimmedText.length
        ⟨⟨trimmedText⟩, startIndex, endIndex⟩ :: chunkLoop text endIndex rest
      | none =>
        ⟨⟨trimmedText⟩, currentIndex, currentIndex + trimmedText.length⟩ ::
          chunkLoop text (currentIndex + trimmedText.length) rest

/-- `chunkText` from `lib/utils/text-chunking.ts`.  `splitO` models
`new RecursiveCharacterTextSplitter({chunkSize, chunkOverlap}).splitText`;
the splitter is configured with the given options and may throw.  The
source's default options are `{maxChunkSize := 1000, overlap := 200}`. -/
def chunkText (splitO : ChunkOptions → String → Except String (List String))
    (text : String) (options : ChunkOptions) : Except String (List TextChunk) := do
  let textChunks ← splitO options text
  pure (chunkLoop text.data 0 textChunks)

/-! ## Deduplication step of the upload route -/

/-- The deduplication filter of the upload route:
`chunks.filter((chunk, index, self) => index === self.findIndex((c) => c.text.trim() === chunk.text.trim()))`. -/
def dedupeChunks (chunks : List TextChunk) : List TextChunk :=
  (chunks.enum.filter (fun p =>
    chunks.findIdx (fun c => jsTrimStr c.text == jsTrimStr p.2.text) = p.1)).map
    (fun p => p.2)

/-! ## Embedding client (embedding of `lib/ai/embeddings.ts`) -/

/-- One element of the `data` array of the remote embedding response. -/
structure EmbeddingItem where
  embedding : List ℚ
deriving DecidableEq

/-- The parsed JSON body of the remote embedding response; a missing or
non-array `data` field is `none`. -/
structure EmbeddingResponseData where
  data : Option (List EmbeddingItem)
deriving DecidableEq

/-- The batching loop of `generateEmbeddings`: slice off up to
`BATCH_SIZE = 64` texts, call the remote endpoint once per slice, fail on
a failed fetch or a malformed body, and concatenate the extracted
vectors in order.  Returns the list of batches actually sent (the call
trace, in order) together with the overall result. -/
def generateEmbeddingsLoop
    (fetchO : List String → Except String EmbeddingResponseData) :
    (texts : List String) → List (List String) × Except String (List (List ℚ))
  | [] => ([], Except.ok [])
  | t :: ts =>
    let batch := (t :: ts).take 64
    match fetchO batch with
    | Except.error e => ([batch], Except.error e)
    | Except.ok respData =>
      match respData.data with
      | none => ([batch], Except.error "Invalid response from ZhipuAI API")
      | some items =>
        let batchEmbeddings := items.map (fun it => it.embedding)
        let r := generateEmbeddingsLoop fetchO ((t :: ts).drop 64)
        (batch :: r.1,
          match r.2 with
          | Except.error e => Except.error e
          | Except.ok vs => Except.ok (batchEmbeddings ++ vs))
termination_by texts => texts.length
decreasing_by
  simp [List.length_drop]
  omega

/-- `generateEmbeddings` from `lib/ai/embeddings.ts`: a missing
`ZHIPUAI_API_KEY` throws immediately, otherwise the batching loop runs.
The first component is the list of request batches issued. -/
def generateEmbeddings (apiKey : Option String)
    (fetchO : List String → Except String EmbeddingResponseData)
    (texts : List String) : List (List String) × Except String (List (List ℚ)) :=
  match apiKey with
  | none => ([], Except.error "ZHIPUAI_API_KEY environment variable is not set")
  | some _ => generateEmbeddingsLoop fetchO texts

/-- Fixed-size windows of at most 64 elements, in order: the partition of
the input that the batching loop is specified to send upstream. -/
def chunksOf64 {α : Type} : List α → List (List α)
  | [] => []
  | x :: xs => ((x :: xs).take 64) :: chunksOf64 ((x :: xs).drop 64)
termination_by l => l.length
decreasing_by
  simp [List.length_drop]
  omega

/-! ## Query rewriter (embedding of `app/(chat)/api/chat/query-rewriter.ts`) -/

/-- The `message.content` object of one choice of the chat-completion
response; a missing `content` is `none`. -/
structure ChoiceMessage where
  content : Option String
deriving DecidableEq

/-- One element of `choices`; a missing `message` is `none`. -/
structure RewriteChoice where
  message : Option ChoiceMessage
deriving DecidableEq

/-- The parsed JSON body of the chat-completion response; a missing or
non-array `choices` is `none`. -/
structure RewriteResponseData where
  choices : Option (List RewriteChoice)
deriving DecidableEq

/-- The observable outcome of the rewriter's `fetch` call: HTTP status
data, the raw text body, and the JSON body (whose parsing may itself
throw). -/
structure RewriteFetchResponse where
  ok : Bool
  status : Nat
  statusText : String
  textBody : String
  jsonBody : Except String RewriteResponseData

/-- The request body sent to the chat-completion endpoint. -/
structure RewriteRequestBody where
  model : String
  messages : List (String × String)
  temperature : ℚ
  maxTokens : Nat

/-- The result object of `rewriteQuery`. -/
structure QueryRewriterResult where
  originalQuery : String
  rewrittenQuery : String
  success : Bool
  error : Option String
deriving DecidableEq

/-- JavaScript `Array.prototype.slice(-k)`: the last `k` elements, the
whole list when `k = 0` (because `-0 === 0`) or when `k` exceeds the
length. -/
def jsSliceLast {α : Type} (l : List α) (k : Nat) : List α :=
  if k = 0 then l else l.drop (l.length - k)

/-- The fixed system prompt of the rewriter (source lines 84-103). -/
def rewriterSystemPrompt : String :=
  "你是一个专业的查询优化助手。你的任务是将用户的简短或模糊查询重写为清晰、完整、易于检索的查询。\n\n**重写规则：**\n1. 如果用户使用指代词（它、这个、那个等），替换为具体的实体或概念\n2. 如果查询太简短，补充必要的上下文信息\n3. 如果查询模糊，明确用户的具体意图\n4. 保持查询的核心问题不变\n5. 输出纯文本查询，不要添加任何解释或额外内容\n\n**示例：**\n- 输入: \"它是什么？\" + 上下文: \"React Hooks...\"\n  输出: \"React Hooks 是什么？\"\n\n- 输入: \"再详细点\" + 上下文: \"介绍了向量数据库...\"\n  输出: \"请详细介绍向量数据库的工作原理和应用场景\"\n\n- 输入: \"还有其他的吗\" + 上下文: \"推荐了 Next.js...\"\n  输出: \"除了 Next.js，还有哪些类似的全栈 React 框架？\"\n\n**重要：只输出重写后的查询文本，不要添加任何其他内容。**"

/-- Join a list of strings with a separator (JavaScript `Array.join`). -/
def joinSep (sep : String) : List String → String
  | [] => ""
  | [x] => x
  | x :: xs => x ++ sep ++ joinSep sep xs

/-- The numbered `[role]: content` lines of the history block of the user
prompt (`recentHistory.map((msg, i) => ...).join("\n")`). -/
def historyLines (recentHistory : List (String × String)) : String :=
  joinSep "\n" (recentHistory.enum.map (fun p =>
    toString (p.1 + 1) ++ ". [" ++ p.2.1 ++ "]: " ++ p.2.2))

/-- The user prompt of the rewriter (source lines 105-116). -/
def rewriterUserPrompt (recentHistory : List (String × String))
    (currentQuery : String) : String :=
  if 0 < recentHistory.length then
    "**对话历史：**\n" ++ historyLines recentHistory ++
    "\n\n**当前查询：**\n" ++ currentQuery ++
    "\n\n请根据对话历史，将当前查询重写为清晰、完整的查询。只输出重写后的查询文本。"
  else
    "**当前查询：**\n" ++ currentQuery ++
    "\n\n请将这个查询重写为更清晰、更完整的形式。只输出重写后的查询文本。"

/-- `rewriteQuery` from `app/(chat)/api/chat/query-rewriter.ts`.

`apiKey` models `process.env.ZHIPUAI_API_KEY`, `getText` models the
external `getTextFromMessage` helper, and `fetchO` models the `fetch`
call to the chat-completion endpoint (a network error is
`Except.error`).  String lengths count characters.  The source gives
`maxHistoryMessages` the default value `5`. -/
def rewriteQuery (apiKey : Option String) (getText : ChatMessage → String)
    (fetchO : RewriteRequestBody → Except String RewriteFetchResponse)
    (currentQuery : String) (conversationHistory : List ChatMessage)
    (maxHistoryMessages : Nat) : QueryRewriterResult :=
  match apiKey with
  | none =>
    ⟨currentQuery, currentQuery, false, some "ZHIPUAI_API_KEY not configured"⟩
  | some _ =>
    let tryBody : Except String QueryRewriterResult := do
      let recentHistory :=
        (((jsSliceLast conversationHistory (maxHistoryMessages * 2)).filter
            (fun m => m.role = "user" || m.role = "assistant")).map
          (fun m => (m.role, getText m))).filter
          (fun p => 0 < (jsTrimStr p.2).length)
      let userPrompt := rewriterUserPrompt recentHistory currentQuery
      let requestBody : RewriteRequestBody :=
        ⟨"GLM-4-Flash",
         [("system", rewriterSystemPrompt), ("user", userPrompt)],
         3 / 10, 200⟩
      let response ← fetchO requestBody
      if !response.ok then
        let _errorText := response.textBody
        throw ("ZhipuAI API error: " ++ toString response.status ++ " " ++
          response.statusText)
      let respData ← response.jsonBody
      match respData.choices with
      | none => throw "Invalid response from ZhipuAI API"
      | some choices =>
        if choices.length = 0 then
          throw "Invalid response from ZhipuAI API"
        else
          match choices with
          | [] => throw "Invalid response from ZhipuAI API"
          | c0 :: _ =>
            let contentMsg ← match c0.message with
              | none => throw "TypeError: cannot read message of undefined"
              | some m => pure m
            let content ← match contentMsg.content with
              | none => throw "TypeError: cannot read content of undefined"
              | some s => pure s
            let rewrittenQuery := jsTrimStr content
            if rewrittenQuery = "" then
              pure ⟨currentQuery, currentQuery, false, some "Empty rewritten query"⟩
            else if currentQuery.length * 5 < rewrittenQuery.length then
              pure ⟨currentQuery, currentQuery, false, some "Rewritten query too long"⟩
            else
              pure ⟨currentQuery, rewrittenQuery, true, none⟩
    match tryBody with
    | Except.ok r => r
    | Except.error e => ⟨currentQuery, currentQuery, false, some e⟩

/-! ## Retrieval orchestration

Two near-duplicate variants exist in the repository: the inline retrieval
block of `POST` in `app/(chat)/api/chat/route.ts` (display floor `0.6`,
top-5, length-dependent search threshold, injected message role `"user"`)
and the standalone `retrieveRelevantContext` (display floor `0.0`, top-3,
search threshold `0.0`, injected message role `"system"`).  Both are
embedded.  External collaborators (`getTextFromMessage`,
`generateEmbedding`, `searchSimilarDocuments`, `generateUUID`) are oracle
parameters. -/

/-- The external collaborators of the retrieval step. -/
structure RetrieveEnv where
  getText : ChatMessage → String
  embedO : String → Except String (List ℚ)
  searchO : SearchParams → Except String (List SearchResultRow)
  uuid : String

/-- JavaScript `(similarity * 100).toFixed(0)`: round to the nearest
integer, half towards the larger value, and print it. -/
def jsToFixed0 (q : ℚ) : String := toString (round q)

/-- One formatted document block of the injected context message:
title line with similarity percentage, then the chunk content. -/
def formatDocBlock (doc : RetrievedDocument) : String :=
  "📄 **" ++ doc.documentTitle ++ "** (" ++ jsToFixed0 (doc.similarity * 100) ++
  "% relevant)\n" ++ doc.content

/-- The document blocks joined by horizontal rules. -/
def documentsText (docs : List RetrievedDocument) : String :=
  joinSep "\n\n---\n\n" (docs.map formatDocBlock)

/-- The full text of the injected knowledge-base context message (the
same template literal is used by both orchestrator variants). -/
def knowledgeContextText (docs : List RetrievedDocument) : String :=
  "**Knowledge Base Context** (" ++ toString docs.length ++
  " relevant document" ++ (if 1 < docs.length then "s" else "") ++
  "):\n\n" ++ documentsText docs ++
  "\n\n*Use information from these documents to answer the user's question. Cite the document title when referencing specific information.*"

/-- `[...uiMessages.slice(0, -1), documentsMessage, uiMessages[uiMessages.length - 1]]`:
insert a message immediately before the last message.  Both callers
always pass a sequence ending with the triggering user message; on the
empty sequence (never produced by the callers) the JavaScript original
would append an `undefined` entry, which has no counterpart here. -/
def spliceBeforeLast (uiMessages : List ChatMessage) (m : ChatMessage) :
    List ChatMessage :=
  uiMessages.take (uiMessages.length - 1) ++
    m :: uiMessages.drop (uiMessages.length - 1)

/-- Map one search row to a `RetrievedDocument` as `retrieveRelevantContext`
does (`result.documentTitle || result.documentId`). -/
def toRetrievedDocFallback (r : SearchResultRow) : RetrievedDocument :=
  ⟨r.documentId, if r.documentTitle = "" then r.documentId else r.documentTitle,
   r.content, r.similarity, r.chunkIndex⟩

/-- Map one search row to a `RetrievedDocument` as the `route.ts` block
does (no title fallback). -/
def toRetrievedDoc (r : SearchResultRow) : RetrievedDocument :=
  ⟨r.documentId, r.documentTitle, r.content, r.similarity, r.chunkIndex⟩

/-- The result object of `retrieveRelevantContext`. -/
structure RetrieveContextResult where
  updatedMessages : List ChatMessage
  retrievedDocuments : List RetrievedDocument
deriving DecidableEq

/-- `retrieveRelevantContext` (standalone orchestrator module).  Runs only
for an authenticated user's fresh user message; cleans the query, embeds
it, searches top-3 with threshold `0.0`, filters at `0.0`, sorts
descending by similarity (stable, as `Array.prototype.sort`), formats the
survivors into one `"system"` message and splices it before the last
message.  Every thrown error is caught and yields the unchanged input
sequence with no documents. -/
def retrieveRelevantContext (env : RetrieveEnv) (message : Option ChatMessage)
    (uiMessages : List ChatMessage) (userId : Option String)
    (isToolApprovalFlow : Bool) : RetrieveContextResult :=
  match message, userId with
  | some m, some uid =>
    if m.role = "user" && uid ≠ "" && !isToolApprovalFlow then
      let tryBody : Except String (List ChatMessage × List RetrievedDocument) := do
        let userMessageText := env.getText m
        if userMessageText ≠ "" && 0 < (jsTrimStr userMessageText).length then
          let cleanedQuery := cleanQueryText userMessageText
          if cleanedQuery ≠ "" && 0 < (jsTrimStr cleanedQuery).length then
            let queryEmbedding ← env.embedO cleanedQuery
            let _queryLength := cleanedQuery.length
            let dynamicThreshold : ℚ := 0
            let searchResults ←
              env.searchO ⟨queryEmbedding, 3, none, dynamicThreshold, uid⟩
            let retrievedDocuments := searchResults.map toRetrievedDocFallback
            if 0 < retrievedDocuments.length then
              let highQualityDocs :=
                (retrievedDocuments.filter
                  (fun doc => decide ((0 : ℚ) ≤ doc.similarity))).mergeSort
                  (fun a b => decide (b.similarity ≤ a.similarity))
              if 0 < highQualityDocs.length then
                let documentsMessage : ChatMessage :=
                  ⟨env.uuid, "system",
                   [MessagePart.text (knowledgeContextText highQualityDocs)]⟩
                pure (spliceBeforeLast uiMessages documentsMessage,
                  retrievedDocuments)
              else pure (uiMessages, retrievedDocuments)
            else pure (uiMessages, retrievedDocuments)
          else pure (uiMessages, [])
        else pure (uiMessages, [])
      match tryBody with
      | Except.ok r => ⟨r.1, r.2⟩
      | Except.error _ => ⟨uiMessages, []⟩
    else ⟨uiMessages, []⟩
  | _, _ => ⟨uiMessages, []⟩

/-- The inline retrieval block of `POST` in `app/(chat)/api/chat/route.ts`
(lines 171-258): like `retrieveRelevantContext` but with a
length-dependent search threshold (`0.5` below 10 characters, `0.7`
otherwise), top-5, no title fallback, display floor `0.6`, and an
injected message of role `"user"`.  Returns the updated message sequence
and the mapped search results. -/
def chatRouteRetrieval (env : RetrieveEnv) (message : Option ChatMessage)
    (uiMessages : List ChatMessage) (sessionUserId : Option String)
    (isToolApprovalFlow : Bool) :
    List ChatMessage × List RetrievedDocument :=
  match message, sessionUserId with
  | some m, some uid =>
    if m.role = "user" && uid ≠ "" && !isToolApprovalFlow then
      let tryBody : Except String (List ChatMessage × List RetrievedDocument) := do
        let userMessageText := env.getText m
        if userMessageText ≠ "" && 0 < (jsTrimStr userMessageText).length then
          let cleanedQuery := cleanQueryText userMessageText
          if cleanedQuery ≠ "" && 0 < (jsTrimStr cleanedQuery).length then
            let queryEmbedding ← env.embedO cleanedQuery
            let queryLength := cleanedQuery.length
            let dynamicThreshold : ℚ := if queryLength < 10 then 1/2 else 7/10
            let searchResults ←
              env.searchO ⟨queryEmbedding, 5, none, dynamicThreshold, uid⟩
            let retrievedDocuments := searchResults.map toRetrievedDoc
            if 0 < retrievedDocuments.length then
              let highQualityDocs :=
                (retrievedDocuments.filter
                  (fun doc => decide ((3 / 5 : ℚ) ≤ doc.similarity))).mergeSort
                  (fun a b => decide (b.similarity ≤ a.similarity))
              if 0 < highQualityDocs.length then
                let documentsMessage : ChatMessage :=
                  ⟨env.uuid, "user",
                   [MessagePart.text (knowledgeContextText highQualityDocs)]⟩
                pure (spliceBeforeLast uiMessages documentsMessage,
                  retrievedDocuments)
              else pure (uiMessages, retrievedDocuments)
            else pure (uiMessages, retrievedDocuments)
          else pure (uiMessages, [])
        else pure (uiMessages, [])
      match tryBody with
      | Except.ok r => r
      | Except.error _ => (uiMessages, [])
    else (uiMessages, [])
  | _, _ => (uiMessages, [])

/-! ## Document upload: the indexing phase of `POST` in
`app/(chat)/api/documents/upload/route.ts` (lines 123-215)

The phase starts after the `Document` row has been persisted.  The whole
phase is wrapped in a `try` whose `catch` reports a partial success:
`success: true`, `chunksIndexed: 0`, a warning, HTTP status 200. -/

/-- One row passed to `saveDocumentEmbeddings`. -/
structure EmbedRow where
  documentId : String
  knowledgeBaseId : Option String
  chunkIndex : Nat
  content : String
  embedding : List ℚ
deriving DecidableEq

/-- The JSON body (plus HTTP status) of the upload endpoint's response. -/
structure UploadResponse where
  status : Nat
  success : Bool
  documentId : String
  title : String
  blobUrl : Option String
  chunksIndexed : Option Nat
  message : Option String
  warning : Option String
  error : Option String
deriving DecidableEq

/-- The external collaborators of the indexing phase. -/
structure UploadEnv where
  apiKey : Option String
  deleteO : String → Except String Unit
  splitO : ChunkOptions → String → Except String (List String)
  embedFetchO : List String → Except String EmbeddingResponseData
  saveO : List EmbedRow → Except String Unit
  nodeEnvDevelopment : Bool

/-- The `try` body of the indexing phase: delete old embeddings, chunk
with `{maxChunkSize: 500, overlap: 50}`, deduplicate, clean, drop chunks
emptied by cleaning, embed in batches, save one row per surviving chunk
(`embeddings[index]`; an out-of-range index, which JavaScript would let
through as `undefined`, is modelled as the empty vector). -/
def uploadIndexingTry (env : UploadEnv) (documentId title : String)
    (blobUrl : Option String) (text : String) : Except String UploadResponse := do
  env.deleteO documentId
  let chunks ← chunkText env.splitO text ⟨500, 50⟩
  let uniqueChunks := dedupeChunks chunks
  if uniqueChunks.length = 0 then
    return ⟨200, true, documentId, title, blobUrl, some 0,
      some "Document uploaded but content is too short to index", none, none⟩
  let cleanedChunks :=
    (uniqueChunks.map (fun c =>
      (⟨cleanTextForEmbedding c.text, c.startIndex, c.endIndex⟩ : TextChunk))).filter
      (fun c => 0 < c.text.length)
  if cleanedChunks.length = 0 then
    return ⟨200, true, documentId, title, blobUrl, some 0,
      some "Document uploaded but content is empty after cleaning", none, none⟩
  let embeddings ←
    (generateEmbeddings env.apiKey env.embedFetchO
      (cleanedChunks.map (fun c => c.text))).2
  env.saveO (cleanedChunks.enum.map (fun p =>
    ⟨documentId, none, p.1, p.2.text, embeddings.getD p.1 []⟩))
  return ⟨200, true, documentId, title, blobUrl, some cleanedChunks.length,
    some ("Successfully uploaded and indexed " ++
      toString cleanedChunks.length ++ " chunks from \"" ++ title ++ "\""),
    none, none⟩

/-- The indexing phase with its `catch`: any thrown error becomes the
partial-success response (success, zero chunks indexed, a warning, the
error message only in development mode). -/
def uploadIndexingPhase (env : UploadEnv) (documentId title : String)
    (blobUrl : Option String) (text : String) : UploadResponse :=
  match uploadIndexingTry env documentId title blobUrl text with
  | Except.ok r => r
  | Except.error e =>
    ⟨200, true, documentId, title, blobUrl, some 0,
     some "Document uploaded but indexing failed",
     some "Document was saved but could not be indexed for search",
     if env.nodeEnvDevelopment then some e else none⟩

/-! ## Predicates for the idempotence analysis of the text cleaner -/

/-- `w` occurs as a contiguous segment of `l`. -/
def SegIn (w l : List Char) : Prop := ∃ u v, l = u ++ w ++ v

/-- No character of `l` is deleted outright by any cleaning step. -/
def NoDeleted (l : List Char) : Prop := ∀ c ∈ l, isDeleted c = false

/-- `l` holds no tab character. -/
def NoTab (l : List Char) : Prop := '\t' ∉ l

/-- No two adjacent space/tab characters. -/
def NoStSt (l : List Char) : Prop :=
  ∀ a b, SegIn [a, b] l → isSpaceTab a = false ∨ isSpaceTab b = false

/-- No three adjacent newlines. -/
def NoNl3 (l : List Char) : Prop := ¬ SegIn ['\n', '\n', '\n'] l

/-- No four adjacent periods. -/
def NoDots4 (l : List Char) : Prop := ¬ SegIn ['.', '.', '.', '.'] l

/-- No three adjacent dashes. -/
def NoDash3 (l : List Char) : Prop := ¬ SegIn ['-', '-', '-'] l

/-- No three adjacent underscores. -/
def NoUnd3 (l : List Char) : Prop := ¬ SegIn ['_', '_', '_'] l

/-- Adjacent whitespace characters agree on being a newline, so every
maximal whitespace run is all-newline or newline-free. -/
def NoMixWs (l : List Char) : Prop :=
  ∀ a b, SegIn [a, b] l → isJsWs a = true → isJsWs b = true →
    isNewline a = isNewline b

/-- The first character, if any, is not whitespace. -/
def HeadNonWs (l : List Char) : Prop :=
  ∀ c, l.head? = some c → isJsWs c = false

/-- The last character, if any, is not whitespace. -/
def LastNonWs (l : List Char) : Prop :=
  ∀ c, l.getLast? = some c → isJsWs c = false

/-- The first character, if any, is a newline or not whitespace. -/
def HeadOkNl (l : List Char) : Prop :=
  ∀ c, l.head? = some c → isJsWs c = false ∨ c = '\n'

/-- The last character, if any, is a newline or not whitespace. -/
def LastOkNl (l : List Char) : Prop :=
  ∀ c, l.getLast? = some c → isJsWs c = false ∨ c = '\n'

/-! ## Stage grouping of the cleaning pipeline (for the idempotence proof) -/

/-- Steps 1-3 of `cleanChars`: the two space/tab collapses around the
newline collapse. -/
def cleanA (x : List Char) : List Char :=
  mapRuns isSpaceTab stRep
    (mapRuns isNewline nl3Rep (mapRuns isSpaceTab stRep x))

/-- Steps 4-8 of `cleanChars`: the three character-class deletions, the
three punctuation collapses and the two quote maps. -/
def cleanB (x : List Char) : List Char :=
  ((((mapRuns (fun c => c = '_') undRep
      (mapRuns (fun c => c = '-') dashRep
        (mapRuns (fun c => c = '.') dotsRep
          ((x.filter (fun c => !(isRemovedControl c))).filter
            (fun c => !(isZeroWidth c)))))).filter
      (fun c => !(isDecorative c))).map
      (fun c => if c = '"' then '"' else c)).map
      (fun c => if c = '\'' then '\'' else c))

/-- Steps 9-11 of `cleanChars`: per-line trimming, blank-line collapse and
the overall trim. -/
def cleanC (x : List Char) : List Char :=
  jsTrim (mapRuns isJsWs wsNlRep (joinLines ((linesOf x).map jsTrim)))

/-! # Theorems -/

/-! ## C4: embedding batching -/

theorem chunksOf64_cons {α : Type} (x : α) (xs : List α) :
    chunksOf64 (x :: xs) = ((x :: xs).take 64) :: chunksOf64 ((x :: xs).drop 64) := by
  rw [chunksOf64]

theorem generateEmbeddingsLoop_ok (f : String → List ℚ)
    (fetchO : List String → Except String EmbeddingResponseData)
    (hf : ∀ b, fetchO b = Except.ok ⟨some (b.map (fun t => ⟨f t⟩))⟩)
    (texts : List String) :
    generateEmbeddingsLoop fetchO texts =
      (chunksOf64 texts, Except.ok (texts.map f)) := by
  induction texts using chunksOf64.induct with
  | case1 => rw [generateEmbeddingsLoop, chunksOf64]; rfl
  | case2 x xs ih =>
    rw [generateEmbeddingsLoop, chunksOf64_cons, hf, ih]
    simp only [List.map_map]
    rw [show ((fun (it : EmbeddingItem) => it.embedding) ∘
        fun t => ({ embedding := f t } : EmbeddingItem)) = f from rfl]
    rw [← List.map_append, List.take_append_drop]

theorem chunksOf64_small {α : Type} :
    ∀ l : List α, ∀ b ∈ chunksOf64 l, b.length ≤ 64 := by
  intro l
  induction l using chunksOf64.induct with
  | case1 => intro b hb; simp [chunksOf64] at hb
  | case2 x xs ih =>
    intro b hb
    rw [chunksOf64_cons, List.mem_cons] at hb
    rcases hb with rfl | hb
    · simp [List.length_take]
    · exact ih b hb

theorem chunksOf64_join {α : Type} (l : List α) :
    (chunksOf64 l).flatten = l := by
  induction l using chunksOf64.induct with
  | case1 => rw [chunksOf64]; rfl
  | case2 x xs ih =>
    rw [chunksOf64_cons]
    simp only [List.flatten_cons, ih]
    exact List.take_append_drop _ _

theorem chunksOf64_lengths_130 {α : Type} (l : List α) (h : l.length = 130) :
    (chunksOf64 l).map List.length = [64, 64, 2] := by
  obtain ⟨x, xs, rfl⟩ : ∃ x xs, l = x :: xs := by
    cases l with
    | nil => simp at h
    | cons x xs => exact ⟨x, xs, rfl⟩
  have h1 : ((x :: xs).drop 64).length = 66 := by
    rw [List.length_drop, h]
  obtain ⟨y, ys, hy⟩ : ∃ y ys, (x :: xs).drop 64 = y :: ys := by
    cases hd : (x :: xs).drop 64 with
    | nil => rw [hd] at h1; simp at h1
    | cons y ys => exact ⟨y, ys, rfl⟩
  have hyl : (y :: ys).length = 66 := by rw [← hy]; exact h1
  have h2 : ((y :: ys).drop 64).length = 2 := by
    rw [List.length_drop, hyl]
  obtain ⟨z, zs, hz⟩ : ∃ z zs, (y :: ys).drop 64 = z :: zs := by
    cases hd : (y :: ys).drop 64 with
    | nil => rw [hd] at h2; simp at h2
    | cons z zs => exact ⟨z, zs, rfl⟩
  have hzl : (z :: zs).length = 2 := by rw [← hz]; exact h2
  have h3 : ((z :: zs).drop 64).length = 0 := by
    rw [List.length_drop, hzl]
  have hz0 : (z :: zs).drop 64 = [] := List.length_eq_zero.mp h3
  rw [chunksOf64_cons, hy, chunksOf64_cons, hz, chunksOf64_cons, hz0, chunksOf64]
  simp only [List.map_cons, List.map_nil, List.length_take, h, hyl, hzl]
  norm_num

/-- C4: `generateEmbeddings` partitions its input into fixed windows of at
most 64 texts, issues one upstream call per window (the call trace is
exactly `chunksOf64 texts`), and — when the endpoint answers each batch
with one vector per input in request order — returns one vector per input
text in input order; for a 130-text input this is 3 calls with windows of
sizes 64, 64 and 2, returning 130 vectors. -/
theorem generateEmbeddings_batching (f : String → List ℚ)
    (fetchO : List String → Except String EmbeddingResponseData)
    (hf : ∀ b, fetchO b = Except.ok ⟨some (b.map (fun t => ⟨f t⟩))⟩)
    (apiKey : String) (texts : List String) :
    generateEmbeddings (some apiKey) fetchO texts =
      (chunksOf64 texts, Except.ok (texts.map f)) ∧
    (∀ b ∈ chunksOf64 texts, b.length ≤ 64) ∧
    (chunksOf64 texts).flatten = texts ∧
    (texts.length = 130 →
      (chunksOf64 texts).map List.length = [64, 64, 2] ∧
      (texts.map f).length = 130) := by
  refine ⟨?_, chunksOf64_small texts, chunksOf64_join texts, fun h130 => ⟨chunksOf64_lengths_130 texts h130, by simp [h130]⟩⟩
  rw [generateEmbeddings]
  exact generateEmbeddingsLoop_ok f fetchO hf texts

def c4Texts : List String := List.replicate 130 "t"

def c4F (_t : String) : List ℚ := [1]

def c4Fetch (b : List String) : Except String EmbeddingResponseData :=
  Except.ok ⟨some (b.map (fun t => ⟨c4F t⟩))⟩

theorem generateEmbeddings_batching_witness :
    (∀ b, c4Fetch b = Except.ok ⟨some (b.map (fun t => ⟨c4F t⟩))⟩) ∧
    (generateEmbeddings (some "key") c4Fetch c4Texts =
      (chunksOf64 c4Texts, Except.ok (c4Texts.map c4F)) ∧
    (∀ b ∈ chunksOf64 c4Texts, b.length ≤ 64) ∧
    (chunksOf64 c4Texts).flatten = c4Texts ∧
    (c4Texts.length = 130 →
      (chunksOf64 c4Texts).map List.length = [64, 64, 2] ∧
      (c4Texts.map c4F).length = 130)) :=
  ⟨fun _ => rfl,
   generateEmbeddings_batching c4F c4Fetch (fun _ => rfl) "key" c4Texts⟩

/-! ## C6: chunk index ordering -/

theorem idxSearch_ge (pat : List Char) (start : Nat) :
    ∀ (l : List Char) (i j : Nat), idxSearch pat start l i = some j → start ≤ j := by
  intro l
  induction l with
  | nil =>
    intro i j h
    rw [idxSearch] at h
    split at h
    · rename_i hc
      cases h
      simp only [Bool.and_eq_true, decide_eq_true_eq] at hc
      exact hc.1
    · cases h
  | cons c cs ih =>
    intro i j h
    rw [idxSearch] at h
    split at h
    · rename_i hc
      cases h
      simp only [Bool.and_eq_true, decide_eq_true_eq] at hc
      exact hc.1
    · exact ih (i + 1) j h

theorem jsIndexOf_ge (s pat : List Char) (start j : Nat)
    (h : jsIndexOf s pat start = some j) : start ≤ j :=
  idxSearch_ge pat start s 0 j h

theorem chunkLoop_bounds (text : List Char) :
    ∀ (raw : List String) (ci : Nat),
      (∀ c ∈ chunkLoop text ci raw, ci ≤ c.startIndex ∧ c.startIndex < c.endIndex) ∧
      List.Chain' (fun a b => a.startIndex ≤ b.startIndex) (chunkLoop text ci raw) := by
  intro raw
  induction raw with
  | nil =>
    intro ci
    rw [chunkLoop]
    exact ⟨fun c hc => absurd hc (by simp), List.chain'_nil⟩
  | cons ct rest ih =>
    intro ci
    rw [chunkLoop]
    split
    · exact ih ci
    · rename_i hlen
      have hpos : 0 < (jsTrim ct.data).length := Nat.pos_of_ne_zero (by simpa using hlen)
      split
      · rename_i startIndex hidx
        have hstart : ci ≤ startIndex := jsIndexOf_ge _ _ _ _ hidx
        obtain ⟨ihall, ihchain⟩ := ih (startIndex + (jsTrim ct.data).length)
        constructor
        · intro c hc
          rcases List.mem_cons.mp hc with rfl | hc
          · exact ⟨hstart, by simpa using hpos⟩
          · have := (ihall c hc).1
            exact ⟨le_trans hstart (le_trans (Nat.le_add_right _ _) this),
              (ihall c hc).2⟩
        · apply List.chain'_cons'.mpr
          refine ⟨?_, ihchain⟩
          intro y hy
          have hym := List.mem_of_mem_head? hy
          have := (ihall y hym).1
          simp only []
          omega
      · obtain ⟨ihall, ihchain⟩ := ih (ci + (jsTrim ct.data).length)
        constructor
        · intro c hc
          rcases List.mem_cons.mp hc with rfl | hc
          · exact ⟨le_refl _, by simpa using hpos⟩
          · have := (ihall c hc).1
            exact ⟨le_trans (Nat.le_add_right _ _) this, (ihall c hc).2⟩
        · apply List.chain'_cons'.mpr
          refine ⟨?_, ihchain⟩
          intro y hy
          have hym := List.mem_of_mem_head? hy
          have := (ihall y hym).1
          simp only []
          omega

/-- C6: for every text and every options value with `overlap <
maxChunkSize`, every chunk produced by `chunkText` has `startIndex`
strictly below `endIndex`, and the chunks appear in non-decreasing
`startIndex` order (whatever raw chunks the external splitter returns). -/
theorem chunkText_indices_ordered
    (splitO : ChunkOptions → String → Except String (List String))
    (text : String) (options : ChunkOptions)
    (_hov : options.overlap < options.maxChunkSize)
    (chunks : List TextChunk)
    (hres : chunkText splitO text options = Except.ok chunks) :
    (∀ c ∈ chunks, c.startIndex < c.endIndex) ∧
    List.Chain' (fun a b => a.startIndex ≤ b.startIndex) chunks := by
  rw [chunkText] at hres
  cases hsplit : splitO options text with
  | error e => rw [hsplit] at hres; cases hres
  | ok raw =>
    rw [hsplit] at hres
    have : chunkLoop text.data 0 raw = chunks := by
      simpa using hres
    obtain ⟨hall, hchain⟩ := chunkLoop_bounds text.data raw 0
    rw [this] at hall hchain
    exact ⟨fun c hc => (hall c hc).2, hchain⟩

def c6Split (_o : ChunkOptions) (_t : String) : Except String (List String) :=
  Except.ok ["ab", "cd"]

theorem chunkText_indices_ordered_witness :
    ((⟨10, 2⟩ : ChunkOptions).overlap < (⟨10, 2⟩ : ChunkOptions).maxChunkSize) ∧
    (chunkText c6Split "xabcd" ⟨10, 2⟩ =
      Except.ok [⟨"ab", 1, 3⟩, ⟨"cd", 3, 5⟩]) ∧
    ((∀ c ∈ [(⟨"ab", 1, 3⟩ : TextChunk), ⟨"cd", 3, 5⟩], c.startIndex < c.endIndex) ∧
     List.Chain' (fun a b => a.startIndex ≤ b.startIndex)
       [(⟨"ab", 1, 3⟩ : TextChunk), ⟨"cd", 3, 5⟩]) :=
  ⟨by decide, by rfl,
   chunkText_indices_ordered c6Split "xabcd" ⟨10, 2⟩ (by decide) _ (by rfl)⟩

/-! ## C9: deduplication -/

theorem enum_pairwise_fst_lt {α : Type} (l : List α) :
    List.Pairwise (fun p q => p.1 < q.1) l.enum := by
  rw [List.pairwise_iff_getElem]
  intro i j hi hj hij
  have hi' : i < l.length := by simpa using hi
  have hj' : j < l.length := by simpa using hj
  rw [List.getElem_enum, List.getElem_enum]
  exact hij

theorem mem_enum_of_getElem {α : Type} (l : List α) (i : Nat) (hi : i < l.length) :
    (i, l[i]) ∈ l.enum := by
  rw [List.mem_enum_iff_getElem?]
  exact List.getElem?_eq_getElem hi

/-- C9: deduplication keeps, for every input chunk, exactly one chunk with
its trimmed text — the first occurrence — so no two chunks passed on to
embedding share the same trimmed text, every kept chunk is an input
chunk, and the chunk kept for a given trimmed text is the one at the
first index bearing that trimmed text. -/
theorem dedupeChunks_unique_trimmed (chunks : List TextChunk) :
    List.Pairwise (fun a b => jsTrimStr a.text ≠ jsTrimStr b.text)
      (dedupeChunks chunks) ∧
    (∀ d ∈ dedupeChunks chunks, d ∈ chunks) ∧
    (∀ c ∈ chunks, ∃ i, ∃ hi : i < chunks.length,
      chunks.findIdx (fun x => jsTrimStr x.text == jsTrimStr c.text) = i ∧
      chunks[i] ∈ dedupeChunks chunks ∧
      jsTrimStr (chunks[i]).text = jsTrimStr c.text) := by
  refine ⟨?_, ?_, ?_⟩
  · rw [dedupeChunks, List.pairwise_map]
    have base := (enum_pairwise_fst_lt chunks).filter
      (fun p => decide (chunks.findIdx
        (fun c => jsTrimStr c.text == jsTrimStr p.2.text) = p.1))
    refine base.imp_of_mem ?_
    intro a b ha hb hlt htrim
    have ha' := (List.mem_filter.mp ha).2
    have hb' := (List.mem_filter.mp hb).2
    have ha2 : chunks.findIdx (fun c => jsTrimStr c.text == jsTrimStr a.2.text) = a.1 :=
      of_decide_eq_true ha'
    have hb2 : chunks.findIdx (fun c => jsTrimStr c.text == jsTrimStr b.2.text) = b.1 :=
      of_decide_eq_true hb'
    have hfun : (fun c : TextChunk => jsTrimStr c.text == jsTrimStr a.2.text) =
        (fun c : TextChunk => jsTrimStr c.text == jsTrimStr b.2.text) := by
      funext c; rw [htrim]
    rw [hfun, hb2] at ha2
    omega
  · intro d hd
    rw [dedupeChunks] at hd
    obtain ⟨p, hp, rfl⟩ := List.mem_map.mp hd
    exact List.snd_mem_of_mem_enum (List.mem_filter.mp hp).1
  · intro c hc
    have hex : chunks.findIdx (fun x => jsTrimStr x.text == jsTrimStr c.text) <
        chunks.length :=
      List.findIdx_lt_length.mpr ⟨c, hc, by simp⟩
    have hp := List.findIdx_getElem (w := hex)
    revert hp
    generalize hI : chunks.findIdx
      (fun x : TextChunk => jsTrimStr x.text == jsTrimStr c.text) = i0 at hex
    intro hp
    have htr : jsTrimStr (chunks[i0]).text = jsTrimStr c.text := by simpa using hp
    refine ⟨i0, hex, rfl, ?_, htr⟩
    rw [dedupeChunks]
    apply List.mem_map.mpr
    refine ⟨(i0, chunks[i0]), ?_, rfl⟩
    apply List.mem_filter.mpr
    refine ⟨mem_enum_of_getElem _ _ hex, ?_⟩
    apply decide_eq_true
    have hfun : (fun x : TextChunk => jsTrimStr x.text == jsTrimStr (chunks[i0]).text) =
        (fun x : TextChunk => jsTrimStr x.text == jsTrimStr c.text) := by
      funext x; rw [htr]
    rw [hfun, hI]

def c9Chunks : List TextChunk := [⟨" dup ", 0, 5⟩, ⟨"dup", 5, 8⟩, ⟨"other", 8, 13⟩]

theorem dedupeChunks_unique_trimmed_witness :
    (dedupeChunks c9Chunks = [⟨" dup ", 0, 5⟩, ⟨"other", 8, 13⟩]) ∧
    (List.Pairwise (fun a b => jsTrimStr a.text ≠ jsTrimStr b.text)
      (dedupeChunks c9Chunks) ∧
    (∀ d ∈ dedupeChunks c9Chunks, d ∈ c9Chunks) ∧
    (∀ c ∈ c9Chunks, ∃ i, ∃ hi : i < c9Chunks.length,
      c9Chunks.findIdx (fun x => jsTrimStr x.text == jsTrimStr c.text) = i ∧
      c9Chunks[i] ∈ dedupeChunks c9Chunks ∧
      jsTrimStr (c9Chunks[i]).text = jsTrimStr c.text)) :=
  ⟨by decide, dedupeChunks_unique_trimmed c9Chunks⟩
/-! ## C3 and C8: query rewriter -/

/-- C3: whenever the credential is missing or the upstream call fails
(network error, non-2xx response, or a body that fails to parse),
`rewriteQuery` returns the original query as `rewrittenQuery` with
`success := false` and a present (descriptive) error, echoing the
original query.  The function is total (it returns a
`QueryRewriterResult`, not an `Except`), which is the model of "never
throws to its caller". -/
theorem rewriteQuery_fail_open (apiKey : Option String)
    (getText : ChatMessage → String)
    (fetchO : RewriteRequestBody → Except String RewriteFetchResponse)
    (currentQuery : String) (conversationHistory : List ChatMessage)
    (maxHistoryMessages : Nat)
    (hfail : apiKey = none ∨
      (∃ errf : RewriteRequestBody → String,
        ∀ req, fetchO req = Except.error (errf req)) ∨
      (∃ respf : RewriteRequestBody → RewriteFetchResponse,
        (∀ req, fetchO req = Except.ok (respf req)) ∧
        (∀ req, (respf req).ok = false)) ∨
      (∃ respf : RewriteRequestBody → RewriteFetchResponse,
        ∃ errf : RewriteRequestBody → String,
        (∀ req, fetchO req = Except.ok (respf req)) ∧
        (∀ req, (respf req).ok = true) ∧
        (∀ req, (respf req).jsonBody = Except.error (errf req)))) :
    (rewriteQuery apiKey getText fetchO currentQuery conversationHistory
      maxHistoryMessages).originalQuery = currentQuery ∧
    (rewriteQuery apiKey getText fetchO currentQuery conversationHistory
      maxHistoryMessages).rewrittenQuery = currentQuery ∧
    (rewriteQuery apiKey getText fetchO currentQuery conversationHistory
      maxHistoryMessages).success = false ∧
    (rewriteQuery apiKey getText fetchO currentQuery conversationHistory
      maxHistoryMessages).error.isSome = true := by
  rcases hfail with rfl | ⟨errf, hb⟩ | ⟨respf, hc1, hc2⟩ | ⟨respf, errf, hd1, hd2, hd3⟩
  · simp [rewriteQuery]
  · cases apiKey with
    | none => simp [rewriteQuery]
    | some k => simp [rewriteQuery, hb, Except.bind, bind, throw, throwThe, MonadExceptOf.throw]
  · cases apiKey with
    | none => simp [rewriteQuery]
    | some k => simp [rewriteQuery, hc1, hc2, Except.bind, bind, throw, throwThe, MonadExceptOf.throw]
  · cases apiKey with
    | none => simp [rewriteQuery]
    | some k => simp [rewriteQuery, hd1, hd2, hd3, Except.bind, bind, throw, throwThe, MonadExceptOf.throw, pure, Except.pure]

def c3Fetch (_req : RewriteRequestBody) : Except String RewriteFetchResponse :=
  Except.error "network down"

def c3GetText (_m : ChatMessage) : String := ""

theorem rewriteQuery_fail_open_witness :
    ((some "key" : Option String) = none ∨
      (∃ errf : RewriteRequestBody → String,
        ∀ req, c3Fetch req = Except.error (errf req)) ∨
      (∃ respf : RewriteRequestBody → RewriteFetchResponse,
        (∀ req, c3Fetch req = Except.ok (respf req)) ∧
        (∀ req, (respf req).ok = false)) ∨
      (∃ respf : RewriteRequestBody → RewriteFetchResponse,
        ∃ errf : RewriteRequestBody → String,
        (∀ req, c3Fetch req = Except.ok (respf req)) ∧
        (∀ req, (respf req).ok = true) ∧
        (∀ req, (respf req).jsonBody = Except.error (errf req)))) ∧
    ((rewriteQuery (some "key") c3GetText c3Fetch "q1" [] 5).originalQuery = "q1" ∧
     (rewriteQuery (some "key") c3GetText c3Fetch "q1" [] 5).rewrittenQuery = "q1" ∧
     (rewriteQuery (some "key") c3GetText c3Fetch "q1" [] 5).success = false ∧
     (rewriteQuery (some "key") c3GetText c3Fetch "q1" [] 5).error.isSome = true) :=
  ⟨Or.inr (Or.inl ⟨fun _ => "network down", fun _ => rfl⟩),
   rewriteQuery_fail_open (some "key") c3GetText c3Fetch "q1" [] 5
     (Or.inr (Or.inl ⟨fun _ => "network down", fun _ => rfl⟩))⟩

/-- C8: when the upstream rewrite response parses to a nonempty trimmed
text whose length exceeds five times the length of the original query,
`rewriteQuery` falls back to the original query with `success := false`. -/
theorem rewriteQuery_rejects_overlong_rewrite (k : String)
    (getText : ChatMessage → String)
    (fetchO : RewriteRequestBody → Except String RewriteFetchResponse)
    (currentQuery : String) (conversationHistory : List ChatMessage)
    (maxHistoryMessages : Nat) (s : String) (st : Nat) (stx tb : String)
    (restChoices : List RewriteChoice)
    (hok : ∀ req, fetchO req = Except.ok
      ⟨true, st, stx, tb, Except.ok ⟨some (⟨some ⟨some s⟩⟩ :: restChoices)⟩⟩)
    (hne : jsTrimStr s ≠ "")
    (hlong : currentQuery.length * 5 < (jsTrimStr s).length) :
    rewriteQuery (some k) getText fetchO currentQuery conversationHistory
      maxHistoryMessages =
    ⟨currentQuery, currentQuery, false, some "Rewritten query too long"⟩ := by
  simp [rewriteQuery, hok, Except.bind, bind, throw, throwThe,
    MonadExceptOf.throw, pure, Except.pure, hne, hlong]

def c8Fetch (_req : RewriteRequestBody) : Except String RewriteFetchResponse :=
  Except.ok ⟨true, 200, "OK", "",
    Except.ok ⟨some [⟨some ⟨some (String.mk (List.replicate 120 'x'))⟩⟩]⟩⟩

theorem rewriteQuery_rejects_overlong_rewrite_witness :
    ((∀ req, c8Fetch req = Except.ok
        ⟨true, 200, "OK", "", Except.ok ⟨some
          (⟨some ⟨some (String.mk (List.replicate 120 'x'))⟩⟩ :: [])⟩⟩) ∧
     jsTrimStr (String.mk (List.replicate 120 'x')) ≠ "" ∧
     (String.mk (List.replicate 20 'q')).length * 5 <
       (jsTrimStr (String.mk (List.replicate 120 'x'))).length) ∧
    rewriteQuery (some "key") c3GetText c8Fetch
      (String.mk (List.replicate 20 'q')) [] 5 =
    ⟨String.mk (List.replicate 20 'q'), String.mk (List.replicate 20 'q'),
     false, some "Rewritten query too long"⟩ :=
  ⟨⟨fun _ => rfl, by decide, by decide⟩,
   rewriteQuery_rejects_overlong_rewrite "key" c3GetText c8Fetch
     (String.mk (List.replicate 20 'q')) [] 5
     (String.mk (List.replicate 120 'x')) 200 "OK" "" []
     (fun _ => rfl) (by decide) (by decide)⟩

/-! ## C7: partial-failure policy of the upload indexing phase -/

theorem uploadIndexingTry_ok_success (env : UploadEnv) (docId title : String)
    (blobUrl : Option String) (text : String) (r : UploadResponse)
    (h : uploadIndexingTry env docId title blobUrl text = Except.ok r) :
    r.success = true ∧ r.status = 200 := by
  rw [uploadIndexingTry] at h
  simp only [bind, Except.bind, pure, Except.pure] at h
  repeat' split at h
  all_goals cases h
  all_goals exact ⟨rfl, rfl⟩

/-- C7: once the Document row is persisted, the indexing phase always
responds with `success: true` and HTTP 200 (never a 5xx), and whenever
any indexing step throws (delete of old embeddings, chunking, cleaning,
embedding, or saving), the response additionally reports
`chunksIndexed: 0` with a warning. -/
theorem uploadIndexingPhase_partial_success (env : UploadEnv)
    (docId title : String) (blobUrl : Option String) (text : String) :
    ((uploadIndexingPhase env docId title blobUrl text).success = true ∧
     (uploadIndexingPhase env docId title blobUrl text).status = 200) ∧
    (∀ e, uploadIndexingTry env docId title blobUrl text = Except.error e →
      uploadIndexingPhase env docId title blobUrl text =
        ⟨200, true, docId, title, blobUrl, some 0,
         some "Document uploaded but indexing failed",
         some "Document was saved but could not be indexed for search",
         if env.nodeEnvDevelopment then some e else none⟩) := by
  constructor
  · rw [uploadIndexingPhase]
    cases h : uploadIndexingTry env docId title blobUrl text with
    | ok r => exact uploadIndexingTry_ok_success env docId title blobUrl text r h
    | error e => exact ⟨rfl, rfl⟩
  · intro e he
    rw [uploadIndexingPhase, he]

def c7Env : UploadEnv :=
  ⟨some "key", fun _ => Except.error "database connection lost",
   fun _ _ => Except.ok [], fun _ => Except.ok ⟨some []⟩,
   fun _ => Except.ok (), false⟩

theorem uploadIndexingPhase_partial_success_witness :
    ((uploadIndexingPhase c7Env "doc-1" "Title" none "body").success = true ∧
     (uploadIndexingPhase c7Env "doc-1" "Title" none "body").status = 200) ∧
    (uploadIndexingTry c7Env "doc-1" "Title" none "body" =
      Except.error "database connection lost") ∧
    (uploadIndexingPhase c7Env "doc-1" "Title" none "body" =
      ⟨200, true, "doc-1", "Title", none, some 0,
       some "Document uploaded but indexing failed",
       some "Document was saved but could not be indexed for search",
       if c7Env.nodeEnvDevelopment then some "database connection lost" else none⟩) :=
  ⟨(uploadIndexingPhase_partial_success c7Env "doc-1" "Title" none "body").1,
   rfl,
   (uploadIndexingPhase_partial_success c7Env "doc-1" "Title" none "body").2
     "database connection lost" rfl⟩

/-! ## C2: empty retrieval leaves the message sequence unchanged -/

/-- C2: if the vector search returns zero rows for the requesting user —
or returns only rows below the display floor (`0.0` for
`retrieveRelevantContext`, `0.6` for the `route.ts` block) — then neither
orchestrator inserts a message: the returned sequence is exactly the
input sequence. -/
theorem retrieval_no_results_leaves_messages_unchanged (env : RetrieveEnv)
    (message : Option ChatMessage) (uiMessages : List ChatMessage)
    (userId : Option String) (isToolApprovalFlow : Bool) :
    ((∀ p, env.searchO p = Except.ok []) →
      (retrieveRelevantContext env message uiMessages userId
        isToolApprovalFlow).updatedMessages = uiMessages ∧
      (chatRouteRetrieval env message uiMessages userId
        isToolApprovalFlow).1 = uiMessages) ∧
    (∀ rows : List SearchResultRow, (∀ p, env.searchO p = Except.ok rows) →
      (∀ r ∈ rows, r.similarity < 0) →
      (retrieveRelevantContext env message uiMessages userId
        isToolApprovalFlow).updatedMessages = uiMessages) ∧
    (∀ rows : List SearchResultRow, (∀ p, env.searchO p = Except.ok rows) →
      (∀ r ∈ rows, r.similarity < 3 / 5) →
      (chatRouteRetrieval env message uiMessages userId
        isToolApprovalFlow).1 = uiMessages) := by
  refine ⟨fun hs => ⟨?_, ?_⟩, fun rows hs hlow => ?_, fun rows hs hlow => ?_⟩
  · cases message with
    | none => simp [retrieveRelevantContext]
    | some m =>
      cases userId with
      | none => simp [retrieveRelevantContext]
      | some uid =>
        rw [retrieveRelevantContext]
        split
        · cases hemb : env.embedO (cleanQueryText (env.getText m)) with
          | error e =>
            by_cases h1 : env.getText m ≠ "" ∧ 0 < (jsTrimStr (env.getText m)).length <;>
            by_cases h2 : cleanQueryText (env.getText m) ≠ "" ∧
              0 < (jsTrimStr (cleanQueryText (env.getText m))).length <;>
            simp [hemb, hs, Except.bind, bind, pure, Except.pure, h1, h2]
          | ok v =>
            by_cases h1 : env.getText m ≠ "" ∧ 0 < (jsTrimStr (env.getText m)).length <;>
            by_cases h2 : cleanQueryText (env.getText m) ≠ "" ∧
              0 < (jsTrimStr (cleanQueryText (env.getText m))).length <;>
            simp [hemb, hs, Except.bind, bind, pure, Except.pure, h1, h2]
        · rfl
  · cases message with
    | none => simp [chatRouteRetrieval]
    | some m =>
      cases userId with
      | none => simp [chatRouteRetrieval]
      | some uid =>
        rw [chatRouteRetrieval]
        split
        · cases hemb : env.embedO (cleanQueryText (env.getText m)) with
          | error e =>
            by_cases h1 : env.getText m ≠ "" ∧ 0 < (jsTrimStr (env.getText m)).length <;>
            by_cases h2 : cleanQueryText (env.getText m) ≠ "" ∧
              0 < (jsTrimStr (cleanQueryText (env.getText m))).length <;>
            simp [hemb, hs, Except.bind, bind, pure, Except.pure, h1, h2]
          | ok v =>
            by_cases h1 : env.getText m ≠ "" ∧ 0 < (jsTrimStr (env.getText m)).length <;>
            by_cases h2 : cleanQueryText (env.getText m) ≠ "" ∧
              0 < (jsTrimStr (cleanQueryText (env.getText m))).length <;>
            simp [hemb, hs, Except.bind, bind, pure, Except.pure, h1, h2]
        · rfl
  · have hfil : (rows.map toRetrievedDocFallback).filter
        (fun doc => decide ((0 : ℚ) ≤ doc.similarity)) = [] := by
      apply List.filter_eq_nil_iff.mpr
      intro d hd
      obtain ⟨r, hr, rfl⟩ := List.mem_map.mp hd
      simpa [toRetrievedDocFallback] using hlow r hr
    cases message with
    | none => simp [retrieveRelevantContext]
    | some m =>
      cases userId with
      | none => simp [retrieveRelevantContext]
      | some uid =>
        rw [retrieveRelevantContext]
        split
        · cases hemb : env.embedO (cleanQueryText (env.getText m)) with
          | error e =>
            by_cases h1 : env.getText m ≠ "" ∧ 0 < (jsTrimStr (env.getText m)).length <;>
            by_cases h2 : cleanQueryText (env.getText m) ≠ "" ∧
              0 < (jsTrimStr (cleanQueryText (env.getText m))).length <;>
            simp [hemb, hs, Except.bind, bind, pure, Except.pure, h1, h2, hfil]
          | ok v =>
            by_cases h1 : env.getText m ≠ "" ∧ 0 < (jsTrimStr (env.getText m)).length <;>
            by_cases h2 : cleanQueryText (env.getText m) ≠ "" ∧
              0 < (jsTrimStr (cleanQueryText (env.getText m))).length <;>
            simp [hemb, hs, Except.bind, bind, pure, Except.pure, h1, h2, hfil]
        · rfl
  · have hfil : (rows.map toRetrievedDoc).filter
        (fun doc => decide ((3 / 5 : ℚ) ≤ doc.similarity)) = [] := by
      apply List.filter_eq_nil_iff.mpr
      intro d hd
      obtain ⟨r, hr, rfl⟩ := List.mem_map.mp hd
      simpa [toRetrievedDoc] using hlow r hr
    cases message with
    | none => simp [chatRouteRetrieval]
    | some m =>
      cases userId with
      | none => simp [chatRouteRetrieval]
      | some uid =>
        rw [chatRouteRetrieval]
        split
        · cases hemb : env.embedO (cleanQueryText (env.getText m)) with
          | error e =>
            by_cases h1 : env.getText m ≠ "" ∧ 0 < (jsTrimStr (env.getText m)).length <;>
            by_cases h2 : cleanQueryText (env.getText m) ≠ "" ∧
              0 < (jsTrimStr (cleanQueryText (env.getText m))).length <;>
            simp [hemb, hs, Except.bind, bind, pure, Except.pure, h1, h2, hfil]
          | ok v =>
            by_cases h1 : env.getText m ≠ "" ∧ 0 < (jsTrimStr (env.getText m)).length <;>
            by_cases h2 : cleanQueryText (env.getText m) ≠ "" ∧
              0 < (jsTrimStr (cleanQueryText (env.getText m))).length <;>
            simp [hemb, hs, Except.bind, bind, pure, Except.pure, h1, h2, hfil]
        · rfl

def c2Msg : ChatMessage := ⟨"m1", "user", [MessagePart.text "what is pgvector?"]⟩

def c2Env : RetrieveEnv :=
  ⟨fun _ => "what is pgvector?", fun _ => Except.ok [1, 0],
   fun _ => Except.ok [], "uuid-1"⟩

theorem retrieval_no_results_unchanged_witness :
    (∀ p, c2Env.searchO p = Except.ok []) ∧
    ((retrieveRelevantContext c2Env (some c2Msg) [c2Msg] (some "user-1")
        false).updatedMessages = [c2Msg] ∧
     (chatRouteRetrieval c2Env (some c2Msg) [c2Msg] (some "user-1")
        false).1 = [c2Msg]) :=
  ⟨fun _ => rfl,
   (retrieval_no_results_leaves_messages_unchanged c2Env (some c2Msg) [c2Msg]
     (some "user-1") false).1 (fun _ => rfl)⟩

/-! ## C1: high-similarity context injection in the `route.ts` block -/

/-- C1: in the `route.ts` retrieval block (display floor `0.6`), when the
search returns the user's chunks at similarities `0.9` and `0.4` for a
fresh authenticated user message with nonempty cleaned text, exactly one
synthetic context message is built, its text is the formatted rendering
of only the `0.9` document (the survivors sorted descending by
similarity are `[0.9]`), and it is spliced in immediately before the
triggering user message, the last message of the input sequence. -/
theorem chatRouteRetrieval_injects_only_high_similarity (env : RetrieveEnv)
    (m : ChatMessage) (uiMessages : List ChatMessage)
    (uid : String) (rA rB : SearchResultRow) (emb : List ℚ)
    (hrole : m.role = "user") (huid : uid ≠ "")
    (h1 : env.getText m ≠ "" ∧ 0 < (jsTrimStr (env.getText m)).length)
    (h2 : cleanQueryText (env.getText m) ≠ "" ∧
      0 < (jsTrimStr (cleanQueryText (env.getText m))).length)
    (hemb : env.embedO (cleanQueryText (env.getText m)) = Except.ok emb)
    (hsearch : ∀ p, env.searchO p = Except.ok [rA, rB])
    (hA : rA.similarity = 9 / 10) (hB : rB.similarity = 4 / 10)
    (_hlast : uiMessages.getLast? = some m) :
    (chatRouteRetrieval env (some m) uiMessages (some uid) false).1 =
      uiMessages.take (uiMessages.length - 1) ++
        (⟨env.uuid, "user",
          [MessagePart.text (knowledgeContextText [toRetrievedDoc rA])]⟩ : ChatMessage) ::
        uiMessages.drop (uiMessages.length - 1) ∧
    (chatRouteRetrieval env (some m) uiMessages (some uid) false).2 =
      [toRetrievedDoc rA, toRetrievedDoc rB] := by
  have hAq : decide ((3 / 5 : ℚ) ≤ (toRetrievedDoc rA).similarity) = true := by
    simp [toRetrievedDoc, hA]; norm_num
  have hBq : decide ((3 / 5 : ℚ) ≤ (toRetrievedDoc rB).similarity) = false := by
    simp [toRetrievedDoc, hB]; norm_num
  rw [chatRouteRetrieval]
  simp [hrole, huid, hemb, hsearch, Except.bind, bind, pure, Except.pure, h1, h2,
    List.filter_cons, hAq, hBq, spliceBeforeLast]

def c1Msg : ChatMessage := ⟨"m2", "user", [MessagePart.text "what is pgvector?"]⟩

def c1Other : ChatMessage := ⟨"m1", "assistant", [MessagePart.text "hello"]⟩

def c1RowA : SearchResultRow := ⟨"dA", "Doc A", "chunk A text", 9 / 10, 0⟩

def c1RowB : SearchResultRow := ⟨"dB", "Doc B", "chunk B text", 4 / 10, 1⟩

def c1Env : RetrieveEnv :=
  ⟨fun _ => "what is pgvector?", fun _ => Except.ok [1, 0],
   fun _ => Except.ok [c1RowA, c1RowB], "uuid-ctx"⟩

theorem chatRouteRetrieval_injects_witness :
    (c1Msg.role = "user" ∧ ("user-1" : String) ≠ "" ∧
     c1Env.getText c1Msg ≠ "" ∧
     cleanQueryText (c1Env.getText c1Msg) ≠ "" ∧
     c1Env.embedO (cleanQueryText (c1Env.getText c1Msg)) = Except.ok [1, 0] ∧
     (∀ p, c1Env.searchO p = Except.ok [c1RowA, c1RowB]) ∧
     c1RowA.similarity = 9 / 10 ∧ c1RowB.similarity = 4 / 10 ∧
     [c1Other, c1Msg].getLast? = some c1Msg) ∧
    ((chatRouteRetrieval c1Env (some c1Msg) [c1Other, c1Msg]
        (some "user-1") false).1 =
      [c1Other, c1Msg].take 1 ++
        (⟨c1Env.uuid, "user",
          [MessagePart.text (knowledgeContextText [toRetrievedDoc c1RowA])]⟩ : ChatMessage) ::
        [c1Other, c1Msg].drop 1 ∧
     (chatRouteRetrieval c1Env (some c1Msg) [c1Other, c1Msg]
        (some "user-1") false).2 =
      [toRetrievedDoc c1RowA, toRetrievedDoc c1RowB]) :=
  ⟨⟨rfl, by decide, by decide, by decide, rfl, fun _ => rfl, rfl, rfl, rfl⟩,
   chatRouteRetrieval_injects_only_high_similarity c1Env c1Msg
     [c1Other, c1Msg] "user-1" c1RowA c1RowB [1, 0] rfl (by decide)
     ⟨by decide, by decide⟩ ⟨by decide, by decide⟩ rfl (fun _ => rfl)
     rfl rfl rfl⟩

/-! ## C10: the retrieval step only ever inserts one message before the last -/

theorem retrieveRelevantContext_structure (env : RetrieveEnv)
    (message : Option ChatMessage) (uiMessages : List ChatMessage)
    (userId : Option String) (flag : Bool) :
    (retrieveRelevantContext env message uiMessages userId flag).updatedMessages =
        uiMessages ∨
    ∃ ctx : ChatMessage,
      (retrieveRelevantContext env message uiMessages userId flag).updatedMessages =
        spliceBeforeLast uiMessages ctx := by
  cases message with
  | none => left; simp [retrieveRelevantContext]
  | some m =>
    cases userId with
    | none => left; simp [retrieveRelevantContext]
    | some uid =>
      rw [retrieveRelevantContext]
      split
      · simp only [bind, Except.bind, pure, Except.pure]
        split
        · rename_i r heq
          repeat' split at heq
          all_goals (try (cases heq))
          all_goals first
            | (left; rfl)
            | (right; exact ⟨_, rfl⟩)
        · left; rfl
      · left; rfl

theorem chatRouteRetrieval_structure (env : RetrieveEnv)
    (message : Option ChatMessage) (uiMessages : List ChatMessage)
    (userId : Option String) (flag : Bool) :
    (chatRouteRetrieval env message uiMessages userId flag).1 = uiMessages ∨
    ∃ ctx : ChatMessage,
      (chatRouteRetrieval env message uiMessages userId flag).1 =
        spliceBeforeLast uiMessages ctx := by
  cases message with
  | none => left; simp [chatRouteRetrieval]
  | some m =>
    cases userId with
    | none => left; simp [chatRouteRetrieval]
    | some uid =>
      rw [chatRouteRetrieval]
      split
      · simp only [bind, Except.bind, pure, Except.pure]
        split
        · rename_i r heq
          repeat' split at heq
          all_goals (try (cases heq))
          all_goals first
            | (left; rfl)
            | (right; exact ⟨_, rfl⟩)
        · left; rfl
      · left; rfl

/-- C10: for every nonempty input sequence (the callers always pass the
sequence ending with the triggering message) and every retrieval
outcome, each orchestrator either returns exactly the input sequence or
the input sequence with exactly one new context message inserted at
position `n - 1`, immediately before the last message; in both cases
every input message survives unchanged and in order. -/
theorem retrieval_inserts_at_most_one_message (env : RetrieveEnv)
    (message : Option ChatMessage) (uiMessages : List ChatMessage)
    (userId : Option String) (flag : Bool)
    (_hne : uiMessages ≠ []) :
    ((retrieveRelevantContext env message uiMessages userId
        flag).updatedMessages = uiMessages ∨
     ∃ ctx : ChatMessage,
       (retrieveRelevantContext env message uiMessages userId
         flag).updatedMessages =
         uiMessages.take (uiMessages.length - 1) ++
           ctx :: uiMessages.drop (uiMessages.length - 1)) ∧
    ((chatRouteRetrieval env message uiMessages userId flag).1 = uiMessages ∨
     ∃ ctx : ChatMessage,
       (chatRouteRetrieval env message uiMessages userId flag).1 =
         uiMessages.take (uiMessages.length - 1) ++
           ctx :: uiMessages.drop (uiMessages.length - 1)) :=
  ⟨retrieveRelevantContext_structure env message uiMessages userId flag,
   chatRouteRetrieval_structure env message uiMessages userId flag⟩

theorem retrieval_inserts_at_most_one_message_witness :
    (([c1Other, c1Msg] : List ChatMessage) ≠ []) ∧
    (((retrieveRelevantContext c1Env (some c1Msg) [c1Other, c1Msg]
        (some "user-1") false).updatedMessages = [c1Other, c1Msg] ∨
     ∃ ctx : ChatMessage,
       (retrieveRelevantContext c1Env (some c1Msg) [c1Other, c1Msg]
         (some "user-1") false).updatedMessages =
         [c1Other, c1Msg].take 1 ++ ctx :: [c1Other, c1Msg].drop 1) ∧
    ((chatRouteRetrieval c1Env (some c1Msg) [c1Other, c1Msg]
        (some "user-1") false).1 = [c1Other, c1Msg] ∨
     ∃ ctx : ChatMessage,
       (chatRouteRetrieval c1Env (some c1Msg) [c1Other, c1Msg]
         (some "user-1") false).1 =
         [c1Other, c1Msg].take 1 ++ ctx :: [c1Other, c1Msg].drop 1)) :=
  ⟨by decide,
   retrieval_inserts_at_most_one_message c1Env (some c1Msg) [c1Other, c1Msg]
     (some "user-1") false (by decide)⟩

/-! ## C5: idempotence of the text cleaner

The cleaner is *not* idempotent on arbitrary input: characters are
deleted (steps 4, 5 and 7) *after* whitespace runs have been collapsed
(steps 1-3), so deleting a character can create a new two-space run that
only a second pass collapses.  `"a \x00 b"` cleans to `"a  b"`, which
cleans again to `"a b"`.  On inputs containing none of the deleted
characters (control characters, zero-width characters, decorative
glyphs) the cleaner is idempotent; this is proved below. -/

/-- C5 counterexample: the cleaner is not idempotent on every string.
Cleaning `"a \x00 b"` yields `"a  b"` (the null byte is deleted after the
space runs were collapsed), and cleaning once more yields `"a b"`. -/
theorem cleanTextForEmbedding_not_idempotent :
    cleanTextForEmbedding (cleanTextForEmbedding "a \x00 b") ≠
      cleanTextForEmbedding "a \x00 b" := by decide

/-! ### Contiguous-segment lemmas -/

theorem segIn_nil (l : List Char) : SegIn [] l := ⟨[], l, rfl⟩

theorem segIn_self (l : List Char) : SegIn l l := ⟨[], [], by simp⟩

theorem segIn_append_right {w a : List Char} (b : List Char) (h : SegIn w a) :
    SegIn w (a ++ b) := by
  obtain ⟨u, v, rfl⟩ := h
  exact ⟨u, v ++ b, by simp⟩

theorem segIn_append_left {w b : List Char} (a : List Char) (h : SegIn w b) :
    SegIn w (a ++ b) := by
  obtain ⟨u, v, rfl⟩ := h
  exact ⟨a ++ u, v, by simp⟩

theorem segIn_cons {w l : List Char} (c : Char) (h : SegIn w l) :
    SegIn w (c :: l) :=
  segIn_append_left [c] h

theorem segIn_trans {w v l : List Char} (h1 : SegIn w v) (h2 : SegIn v l) :
    SegIn w l := by
  obtain ⟨u1, v1, rfl⟩ := h1
  obtain ⟨u2, v2, rfl⟩ := h2
  exact ⟨u2 ++ u1, v1 ++ v2, by simp⟩

theorem mem_of_segIn_single {c : Char} {l : List Char} (h : SegIn [c] l) :
    c ∈ l := by
  obtain ⟨u, v, rfl⟩ := h
  simp

theorem segIn_single_of_mem {c : Char} {l : List Char} (h : c ∈ l) :
    SegIn [c] l := by
  obtain ⟨s, t, rfl⟩ := List.append_of_mem h
  exact ⟨s, t, by simp⟩

theorem mem_of_mem_segIn {c : Char} {w l : List Char} (hc : c ∈ w)
    (h : SegIn w l) : c ∈ l := by
  obtain ⟨u, v, rfl⟩ := h
  simp [hc]

theorem segIn_length_le {w l : List Char} (h : SegIn w l) :
    w.length ≤ l.length := by
  obtain ⟨u, v, rfl⟩ := h
  simp; omega

/-- If `w ++ v` equals `a ++ x :: b` and `x` is not in `w`, then `w` is a
prefix of `a`. -/
theorem prefixOfLeft {x : Char} :
    ∀ {w a v b : List Char}, w ++ v = a ++ x :: b → x ∉ w →
      ∃ v2, a = w ++ v2 := by
  intro w
  induction w with
  | nil => intro a v b _ _; exact ⟨a, rfl⟩
  | cons d w2 ih =>
    intro a v b he hx
    cases a with
    | nil =>
      simp only [List.cons_append, List.nil_append] at he
      obtain ⟨rfl, -⟩ := List.cons.inj he
      simp at hx
    | cons e a2 =>
      simp only [List.cons_append] at he
      obtain ⟨rfl, he2⟩ := List.cons.inj he
      obtain ⟨v2, rfl⟩ := ih he2 (fun hm => hx (List.mem_cons_of_mem _ hm))
      exact ⟨v2, rfl⟩

/-- A segment without the separator lies wholly on one side of it. -/
theorem segIn_split {x : Char} {w : List Char} (hx : x ∉ w) :
    ∀ {a b : List Char}, SegIn w (a ++ x :: b) → SegIn w a ∨ SegIn w b := by
  intro a b h
  obtain ⟨u, v, he⟩ := h
  induction u generalizing a with
  | nil =>
    simp only [List.nil_append] at he
    obtain ⟨v2, rfl⟩ := prefixOfLeft he.symm hx
    exact Or.inl ⟨[], v2, rfl⟩
  | cons y u2 ih =>
    cases a with
    | nil =>
      simp only [List.nil_append, List.cons_append] at he
      obtain ⟨rfl, he2⟩ := List.cons.inj he
      exact Or.inr ⟨u2, v, he2⟩
    | cons e a2 =>
      simp only [List.cons_append] at he
      obtain ⟨rfl, he2⟩ := List.cons.inj he
      rcases ih he2 with h1 | h1
      · exact Or.inl (segIn_cons _ h1)
      · exact Or.inr h1

/-- Position form of a two-character segment. -/
theorem segIn_pair_iff {a b : Char} {l : List Char} :
    SegIn [a, b] l ↔ ∃ i, l[i]? = some a ∧ l[i + 1]? = some b := by
  constructor
  · rintro ⟨u, v, rfl⟩
    refine ⟨u.length, ?_, ?_⟩
    · rw [List.append_assoc, List.getElem?_append_right (le_refl _)]
      simp
    · rw [List.append_assoc, List.getElem?_append_right (by omega)]
      simp
  · rintro ⟨i, ha, hb⟩
    induction l generalizing i with
    | nil => simp at ha
    | cons c cs ih =>
      cases i with
      | zero =>
        simp only [List.getElem?_cons_zero, Option.some.injEq] at ha
        subst ha
        simp only [List.getElem?_cons_succ] at hb
        cases cs with
        | nil => simp at hb
        | cons d ds =>
          simp only [List.getElem?_cons_zero, Option.some.injEq] at hb
          subst hb
          exact ⟨[], ds, rfl⟩
      | succ j =>
        simp only [List.getElem?_cons_succ] at ha hb
        exact segIn_cons c (ih j ha hb)

/-- A two-character segment of an append is in the left part, in the
right part, or spans the boundary. -/
theorem segIn_pair_append {a b : Char} {A B : List Char}
    (h : SegIn [a, b] (A ++ B)) :
    SegIn [a, b] A ∨ SegIn [a, b] B ∨
      (A.getLast? = some a ∧ B.head? = some b) := by
  obtain ⟨i, ha, hb⟩ := segIn_pair_iff.mp h
  by_cases h1 : i + 1 < A.length
  · left
    apply segIn_pair_iff.mpr
    refine ⟨i, ?_, ?_⟩
    · rw [List.getElem?_append_left (by omega)] at ha; exact ha
    · rw [List.getElem?_append_left h1] at hb; exact hb
  · by_cases h2 : i < A.length
    · right; right
      have hiA : i = A.length - 1 := by omega
      constructor
      · rw [List.getElem?_append_left h2] at ha
        rw [List.getLast?_eq_getElem? A]
        rw [hiA] at ha
        exact ha
      · rw [List.getElem?_append_right (by omega)] at hb
        have h0 : i + 1 - A.length = 0 := by omega
        rw [h0] at hb
        rw [List.head?_eq_getElem? B]
        exact hb
    · right; left
      apply segIn_pair_iff.mpr
      refine ⟨i - A.length, ?_, ?_⟩
      · rw [List.getElem?_append_right (by omega)] at ha; exact ha
      · rw [List.getElem?_append_right (by omega)] at hb
        have : i + 1 - A.length = i - A.length + 1 := by omega
        rw [this] at hb
        exact hb

/-! ### Facts about the JavaScript trim -/

theorem jsTrimLeft_suffix (l : List Char) : ∃ u, l = u ++ jsTrimLeft l :=
  ⟨l.takeWhile isJsWs, (List.takeWhile_append_dropWhile isJsWs l).symm⟩

theorem jsTrimRight_isPre (l : List Char) : ∃ v, l = jsTrimRight l ++ v := by
  refine ⟨(l.reverse.takeWhile isJsWs).reverse, ?_⟩
  rw [jsTrimRight, ← List.reverse_append]
  rw [List.takeWhile_append_dropWhile]
  simp

theorem segIn_jsTrim (l : List Char) : SegIn (jsTrim l) l := by
  obtain ⟨v, hv⟩ := jsTrimRight_isPre (jsTrimLeft l)
  obtain ⟨u, hu⟩ := jsTrimLeft_suffix l
  refine ⟨u, v, ?_⟩
  rw [jsTrim, List.append_assoc, ← hv, ← hu]

theorem headNonWs_jsTrimLeft (l : List Char) : HeadNonWs (jsTrimLeft l) := by
  intro c hc
  have := List.head?_dropWhile_not isJsWs l
  rw [jsTrimLeft] at hc
  rw [hc] at this
  simpa using this

theorem lastNonWs_jsTrimRight (l : List Char) : LastNonWs (jsTrimRight l) := by
  intro c hc
  rw [List.getLast?_eq_head?_reverse, jsTrimRight, List.reverse_reverse] at hc
  have := List.head?_dropWhile_not isJsWs l.reverse
  rw [hc] at this
  simpa using this

theorem jsTrimLeft_eq_self {l : List Char} (h : HeadNonWs l) :
    jsTrimLeft l = l := by
  rw [jsTrimLeft]
  cases l with
  | nil => rfl
  | cons c cs =>
    rw [List.dropWhile_cons_of_neg]
    simp [h c rfl]

theorem jsTrimRight_eq_self {l : List Char} (h : LastNonWs l) :
    jsTrimRight l = l := by
  rw [jsTrimRight]
  cases hl : l.reverse with
  | nil =>
    have : l = [] := by simpa using congrArg List.reverse hl
    simp [this]
  | cons c cs =>
    have hc : l.getLast? = some c := by
      rw [List.getLast?_eq_head?_reverse, hl]; rfl
    rw [List.dropWhile_cons_of_neg]
    · rw [← hl]; simp
    · simp [h c hc]

theorem headNonWs_jsTrim (l : List Char) : HeadNonWs (jsTrim l) := by
  intro c hc
  rw [jsTrim] at hc
  obtain ⟨v, hv⟩ := jsTrimRight_isPre (jsTrimLeft l)
  have hh : (jsTrimLeft l).head? = some c := by
    rw [hv]
    cases hj : jsTrimRight (jsTrimLeft l) with
    | nil => rw [hj] at hc; cases hc
    | cons d ds =>
      rw [hj] at hc
      simp only [List.head?_cons, Option.some.injEq] at hc
      subst hc
      rfl
  exact headNonWs_jsTrimLeft l c hh

theorem lastNonWs_jsTrim (l : List Char) : LastNonWs (jsTrim l) :=
  lastNonWs_jsTrimRight (jsTrimLeft l)

theorem jsTrim_eq_self {l : List Char} (h1 : HeadNonWs l) (h2 : LastNonWs l) :
    jsTrim l = l := by
  rw [jsTrim, jsTrimLeft_eq_self h1, jsTrimRight_eq_self h2]

/-! ### Runs machinery: maximal runs and run rewriting -/

theorem runsOfAux_pure (q : Char → Bool) :
    ∀ (l pending : List Char), (∀ c ∈ pending, q c = true) →
      ∀ r ∈ runsOfAux q l pending, r ≠ [] ∧ ∀ c ∈ r, q c = true := by
  intro l
  induction l with
  | nil =>
    intro pending hp r hr
    rw [runsOfAux] at hr
    cases pending with
    | nil => simp at hr
    | cons p ps =>
      simp only [List.isEmpty_cons, Bool.false_eq_true, if_false,
        List.mem_singleton] at hr
      subst hr
      exact ⟨by simp, hp⟩
  | cons c cs ih =>
    intro pending hp r hr
    rw [runsOfAux] at hr
    by_cases hq : q c = true
    · rw [if_pos hq] at hr
      refine ih (pending ++ [c]) ?_ r hr
      intro d hd
      rcases List.mem_append.mp hd with hd | hd
      · exact hp d hd
      · simp at hd; subst hd; exact hq
    · rw [if_neg hq] at hr
      rcases List.mem_append.mp hr with hr | hr
      · cases pending with
        | nil => simp at hr
        | cons p ps =>
          simp only [List.isEmpty_cons, Bool.false_eq_true, if_false,
            List.mem_singleton] at hr
          subst hr
          exact ⟨by simp, hp⟩
      · exact ih [] (by simp) r hr

theorem runsOfAux_segIn (q : Char → Bool) :
    ∀ (l pending : List Char), ∀ r ∈ runsOfAux q l pending,
      SegIn r (pending ++ l) := by
  intro l
  induction l with
  | nil =>
    intro pending r hr
    rw [runsOfAux] at hr
    cases pending with
    | nil => simp at hr
    | cons p ps =>
      simp only [List.isEmpty_cons, Bool.false_eq_true, if_false,
        List.mem_singleton] at hr
      subst hr
      simpa using segIn_self (p :: ps)
  | cons c cs ih =>
    intro pending r hr
    rw [runsOfAux] at hr
    by_cases hq : q c = true
    · rw [if_pos hq] at hr
      have := ih (pending ++ [c]) r hr
      simpa using this
    · rw [if_neg hq] at hr
      rcases List.mem_append.mp hr with hr | hr
      · cases pending with
        | nil => simp at hr
        | cons p ps =>
          simp only [List.isEmpty_cons, Bool.false_eq_true, if_false,
            List.mem_singleton] at hr
          subst hr
          exact segIn_append_right _ (segIn_self _)
      · have := ih [] r hr
        simp only [List.nil_append] at this
        exact segIn_append_left pending (segIn_cons c this)

theorem mapRunsAux_noop (q : Char → Bool) (g : List Char → List Char) :
    ∀ (l pending : List Char),
      (∀ r ∈ runsOfAux q l pending, g r = r) →
      mapRunsAux q g l pending = pending ++ l := by
  intro l
  induction l with
  | nil =>
    intro pending hg
    rw [mapRunsAux]
    cases pending with
    | nil => rfl
    | cons p ps =>
      rw [if_neg (by simp)]
      have := hg (p :: ps) (by rw [runsOfAux]; simp)
      simp [this]
  | cons c cs ih =>
    intro pending hg
    rw [mapRunsAux]
    by_cases hq : q c = true
    · rw [if_pos hq]
      have := ih (pending ++ [c]) (by
        intro r hr
        apply hg
        rw [runsOfAux, if_pos hq]
        exact hr)
      rw [this]
      simp
    · rw [if_neg hq]
      have hrec := ih [] (by
        intro r hr
        apply hg
        rw [runsOfAux, if_neg hq]
        exact List.mem_append_right _ hr)
      rw [hrec]
      cases pending with
      | nil => rfl
      | cons p ps =>
        rw [if_neg (by simp)]
        have := hg (p :: ps) (by
          rw [runsOfAux, if_neg hq]
          exact List.mem_append_left _ (by simp))
        simp [this]

theorem segIn_run_of_pure (q : Char → Bool) {w : List Char}
    (hw : w ≠ []) (hwq : ∀ c ∈ w, q c = true) :
    ∀ (l pending : List Char), SegIn w (pending ++ l) →
      ∃ r ∈ runsOfAux q l pending, SegIn w r := by
  intro l
  induction l with
  | nil =>
    intro pending hseg
    rw [runsOfAux]
    simp only [List.append_nil] at hseg
    cases pending with
    | nil =>
      exfalso
      obtain ⟨u, v, he⟩ := hseg
      cases w with
      | nil => exact hw rfl
      | cons a as => simp at he
    | cons p ps =>
      rw [if_neg (by simp)]
      exact ⟨p :: ps, by simp, hseg⟩
  | cons c cs ih =>
    intro pending hseg
    rw [runsOfAux]
    by_cases hq : q c = true
    · rw [if_pos hq]
      apply ih (pending ++ [c])
      simpa using hseg
    · rw [if_neg hq]
      have hcw : c ∉ w := fun hm => hq (hwq c hm)
      rcases segIn_split hcw hseg with hseg | hseg
      · cases pending with
        | nil =>
          exfalso
          obtain ⟨u, v, he⟩ := hseg
          cases w with
          | nil => exact hw rfl
          | cons a as => simp at he
        | cons p ps =>
          rw [if_neg (by simp)]
          exact ⟨p :: ps, List.mem_append_left _ (by simp), hseg⟩
      · obtain ⟨r, hr, hwr⟩ := ih [] (by simpa using hseg)
        exact ⟨r, List.mem_append_right _ hr, hwr⟩

theorem runsOfAux_pure_list (q : Char → Bool) :
    ∀ (r pending : List Char), (∀ c ∈ r, q c = true) →
      runsOfAux q r pending =
        (if (pending ++ r).isEmpty then [] else [pending ++ r]) := by
  intro r
  induction r with
  | nil => intro pending _; rw [runsOfAux]; simp
  | cons c cs ih =>
    intro pending hr
    rw [runsOfAux, if_pos (hr c (by simp))]
    rw [ih (pending ++ [c]) (fun d hd => hr d (by simp [hd]))]
    simp

theorem runsOf_pure_eq (q : Char → Bool) (r : List Char) (hne : r ≠ [])
    (hr : ∀ c ∈ r, q c = true) : runsOf q r = [r] := by
  rw [runsOf, runsOfAux_pure_list q r [] hr]
  simp [hne]

theorem runsOfAux_pure_block (q : Char → Bool) {c : Char} (hq : q c = false) :
    ∀ (A X acc : List Char), (∀ x ∈ A, q x = true) →
      runsOfAux q (A ++ c :: X) acc =
        (if (acc ++ A).isEmpty then [] else [acc ++ A]) ++ runsOfAux q X [] := by
  intro A
  induction A with
  | nil =>
    intro X acc _
    rw [List.nil_append, runsOfAux, if_neg (by simp [hq])]
    simp
  | cons a A2 ih =>
    intro X acc hA
    rw [List.cons_append, runsOfAux, if_pos (hA a (by simp))]
    rw [ih X (acc ++ [a]) (fun d hd => hA d (by simp [hd]))]
    simp

theorem runsOfAux_qfree_block (q : Char → Bool) :
    ∀ (A X acc : List Char), A ≠ [] → (∀ x ∈ A, q x = false) →
      runsOfAux q (A ++ X) acc =
        (if acc.isEmpty then [] else [acc]) ++ runsOfAux q X [] := by
  intro A
  induction A with
  | nil => intro X acc h _; exact absurd rfl h
  | cons a A2 ih =>
    intro X acc _ hA
    rw [List.cons_append, runsOfAux, if_neg (by simp [hA a (by simp)])]
    cases hA2 : A2 with
    | nil => simp
    | cons b B =>
      rw [← hA2, ih X [] (by simp [hA2]) (fun d hd => hA d (by simp [hd]))]
      simp

/-- A run-rewriting function `g` that keeps runs nonempty and pure. -/
def RunPreserving (q : Char → Bool) (g : List Char → List Char) : Prop :=
  ∀ r, r ≠ [] → (∀ c ∈ r, q c = true) → (g r ≠ [] ∧ ∀ c ∈ g r, q c = true)

theorem runsOf_mapRuns (q : Char → Bool) {g : List Char → List Char}
    (hg : RunPreserving q g) :
    ∀ (l pending : List Char), (∀ c ∈ pending, q c = true) →
      runsOf q (mapRunsAux q g l pending) = (runsOfAux q l pending).map g := by
  intro l
  induction l with
  | nil =>
    intro pending hp
    rw [mapRunsAux, runsOfAux]
    cases pending with
    | nil => simp [runsOf, runsOfAux]
    | cons p ps =>
      rw [if_neg (by simp), if_neg (by simp)]
      obtain ⟨hne, hpure⟩ := hg (p :: ps) (by simp) hp
      rw [runsOf_pure_eq q _ hne hpure]
      simp
  | cons c cs ih =>
    intro pending hp
    rw [mapRunsAux, runsOfAux]
    by_cases hq : q c = true
    · rw [if_pos hq, if_pos hq]
      exact ih (pending ++ [c]) (by
        intro d hd
        rcases List.mem_append.mp hd with hd | hd
        · exact hp d hd
        · simp at hd; subst hd; exact hq)
    · rw [if_neg hq, if_neg hq]
      have hqc : q c = false := by
        cases hqq : q c with
        | false => rfl
        | true => exact absurd hqq hq
      cases pending with
      | nil =>
        simp only [List.isEmpty_nil, if_true, List.nil_append, List.map_nil]
        rw [runsOf]
        rw [show (c :: mapRunsAux q g cs [] : List Char) =
          ([] : List Char) ++ c :: mapRunsAux q g cs [] from rfl]
        rw [runsOfAux_pure_block q hqc [] _ [] (by simp)]
        simp only [List.append_nil, List.isEmpty_nil, if_true, List.nil_append]
        exact ih [] (by simp)
      | cons p ps =>
        rw [if_neg (by simp), if_neg (by simp)]
        obtain ⟨hne, hpure⟩ := hg (p :: ps) (by simp) hp
        rw [runsOf]
        rw [runsOfAux_pure_block q hqc (g (p :: ps)) _ [] hpure]
        rw [if_neg (by simpa using hne)]
        simp only [List.nil_append, List.map_append, List.map_cons, List.map_nil,
          List.singleton_append]
        congr 1
        have := ih [] (by simp)
        rw [runsOf] at this
        exact this

theorem mapRuns_noop (q : Char → Bool) (g : List Char → List Char)
    (l : List Char) (h : ∀ r ∈ runsOf q l, g r = r) : mapRuns q g l = l := by
  rw [mapRuns, mapRunsAux_noop q g l [] h]
  rfl

theorem runsOf_mem_pure (q : Char → Bool) {l r : List Char}
    (hr : r ∈ runsOf q l) : r ≠ [] ∧ ∀ c ∈ r, q c = true :=
  runsOfAux_pure q l [] (by simp) r hr

theorem runsOf_mem_segIn (q : Char → Bool) {l r : List Char}
    (hr : r ∈ runsOf q l) : SegIn r l := by
  have := runsOfAux_segIn q l [] r hr
  simpa using this

theorem segIn_run (q : Char → Bool) {w l : List Char} (hw : w ≠ [])
    (hwq : ∀ c ∈ w, q c = true) (h : SegIn w l) :
    ∃ r ∈ runsOf q l, SegIn w r := by
  apply segIn_run_of_pure q hw hwq l []
  simpa using h

theorem runsOfAux_mapRuns_disjoint (q q' : Char → Bool)
    (hdisj : ∀ c, q' c = true → q c = false) {g' : List Char → List Char}
    (hg' : RunPreserving q' g') :
    ∀ (l pending acc : List Char), (∀ c ∈ pending, q' c = true) →
      runsOfAux q (mapRunsAux q' g' l pending) acc =
        runsOfAux q (pending ++ l) acc := by
  intro l
  induction l with
  | nil =>
    intro pending acc hp
    rw [mapRunsAux]
    cases pending with
    | nil => simp
    | cons p ps =>
      rw [if_neg (by simp)]
      obtain ⟨hne, hpure⟩ := hg' (p :: ps) (by simp) hp
      have hfreeg : ∀ x ∈ g' (p :: ps), q x = false :=
        fun x hx => hdisj x (hpure x hx)
      have hfreep : ∀ x ∈ (p :: ps), q x = false :=
        fun x hx => hdisj x (hp x hx)
      rw [show g' (p :: ps) = g' (p :: ps) ++ ([] : List Char) by simp]
      rw [runsOfAux_qfree_block q _ _ acc hne hfreeg]
      rw [List.append_nil]
      rw [show ((p :: ps) : List Char) = (p :: ps) ++ ([] : List Char) by simp]
      rw [runsOfAux_qfree_block q _ _ acc (by simp) (by simpa using hfreep)]
  | cons c cs ih =>
    intro pending acc hp
    rw [mapRunsAux]
    by_cases hq' : q' c = true
    · rw [if_pos hq']
      have := ih (pending ++ [c]) acc (by
        intro d hd
        rcases List.mem_append.mp hd with hd | hd
        · exact hp d hd
        · simp at hd; subst hd; exact hq')
      rw [this]
      simp
    · rw [if_neg hq']
      cases pending with
      | nil =>
        rw [if_pos (by simp), List.nil_append, List.nil_append]
        rw [runsOfAux, runsOfAux]
        by_cases hq : q c = true
        · rw [if_pos hq, if_pos hq]
          exact ih [] (acc ++ [c]) (by simp)
        · rw [if_neg hq, if_neg hq]
          congr 1
          exact ih [] [] (by simp)
      | cons p ps =>
        rw [if_neg (by simp)]
        obtain ⟨hne, hpure⟩ := hg' (p :: ps) (by simp) hp
        have hfreeg : ∀ x ∈ g' (p :: ps), q x = false :=
          fun x hx => hdisj x (hpure x hx)
        have hfreep : ∀ x ∈ (p :: ps), q x = false :=
          fun x hx => hdisj x (hp x hx)
        rw [runsOfAux_qfree_block q _ _ acc hne hfreeg]
        rw [List.cons_append]
        rw [show (p :: (ps ++ c :: cs) : List Char) =
          (p :: ps) ++ c :: cs from by simp]
        rw [runsOfAux_qfree_block q _ _ acc (by simp) hfreep]
        congr 1
        rw [runsOfAux, runsOfAux]
        by_cases hq : q c = true
        · rw [if_pos hq, if_pos hq]
          exact ih [] [c] (by simp)
        · rw [if_neg hq, if_neg hq]
          congr 1
          exact ih [] [] (by simp)

theorem runsOf_mapRuns_disjoint (q q' : Char → Bool)
    (hdisj : ∀ c, q' c = true → q c = false) {g' : List Char → List Char}
    (hg' : RunPreserving q' g') (l : List Char) :
    runsOf q (mapRuns q' g' l) = runsOf q l := by
  rw [runsOf, runsOf, mapRuns]
  have := runsOfAux_mapRuns_disjoint q q' hdisj hg' l [] [] (by simp)
  simpa using this

theorem mem_mapRunsAux (q : Char → Bool) {g : List Char → List Char}
    {extra : Char → Prop}
    (hintro : ∀ r c, c ∈ g r → c ∈ r ∨ extra c) :
    ∀ (l pending : List Char) (c : Char), c ∈ mapRunsAux q g l pending →
      c ∈ pending ++ l ∨ extra c := by
  intro l
  induction l with
  | nil =>
    intro pending c hc
    rw [mapRunsAux] at hc
    cases pending with
    | nil => simp at hc
    | cons p ps =>
      rw [if_neg (by simp)] at hc
      rcases hintro _ _ hc with h | h
      · left; simpa using h
      · right; exact h
  | cons d cs ih =>
    intro pending c hc
    rw [mapRunsAux] at hc
    by_cases hq : q d = true
    · rw [if_pos hq] at hc
      rcases ih (pending ++ [d]) c hc with h | h
      · left; simpa using h
      · right; exact h
    · rw [if_neg hq] at hc
      rcases List.mem_append.mp hc with h | h
      · cases pending with
        | nil => simp at h
        | cons p ps =>
          rw [if_neg (by simp)] at h
          rcases hintro _ _ h with h2 | h2
          · left; exact List.mem_append_left _ h2
          · right; exact h2
      · rcases List.mem_cons.mp h with rfl | h2
        · left; simp
        · rcases ih [] c h2 with h3 | h3
          · left; simp at h3; simp [h3]
          · right; exact h3

theorem mem_mapRuns (q : Char → Bool) {g : List Char → List Char}
    {extra : Char → Prop}
    (hintro : ∀ r c, c ∈ g r → c ∈ r ∨ extra c)
    {l : List Char} {c : Char} (hc : c ∈ mapRuns q g l) : c ∈ l ∨ extra c := by
  have := mem_mapRunsAux q hintro l [] c hc
  simpa using this

/-! ### Lines: splitting, joining, and membership -/

theorem linesOf_ne_nil (l : List Char) : linesOf l ≠ [] := by
  cases l with
  | nil => simp [linesOf]
  | cons c cs =>
    rw [linesOf]
    by_cases h : isNewline c = true
    · simp [h]
    · simp only [h, if_false, Bool.false_eq_true]
      cases linesOf cs with
      | nil => simp
      | cons li rest => simp

theorem joinLines_linesOf (l : List Char) : joinLines (linesOf l) = l := by
  induction l with
  | nil => rfl
  | cons c cs ih =>
    rw [linesOf]
    by_cases h : isNewline c = true
    · rw [if_pos h]
      have hc : c = '\n' := by
        rw [isNewline] at h
        simpa using h
      subst hc
      have h2 : joinLines ([] :: linesOf cs) =
          '\n' :: joinLines (linesOf cs) := by
        cases hl : linesOf cs with
        | nil => exact absurd hl (linesOf_ne_nil cs)
        | cons li rest => rfl
      rw [h2, ih]
    · rw [if_neg h]
      cases hl : linesOf cs with
      | nil => exact absurd hl (linesOf_ne_nil cs)
      | cons li rest =>
        rw [hl] at ih
        show joinLines ((c :: li) :: rest) = c :: cs
        have h2 : joinLines ((c :: li) :: rest) =
            c :: joinLines (li :: rest) := by
          cases rest with
          | nil => rfl
          | cons li2 rest2 => rfl
        rw [h2, ih]

theorem linesOf_nlFree {l : List Char} (h : '\n' ∉ l) : linesOf l = [l] := by
  induction l with
  | nil => rfl
  | cons c cs ih =>
    rw [linesOf]
    have hc : isNewline c = false := by
      rw [isNewline]
      simp only [decide_eq_false_iff_not]
      intro hh
      exact h (by simp [hh])
    rw [if_neg (by simp [hc])]
    rw [ih (fun hm => h (by simp [hm]))]

theorem linesOf_split {A : List Char} (hA : '\n' ∉ A) (B : List Char) :
    linesOf (A ++ '\n' :: B) = A :: linesOf B := by
  induction A with
  | nil =>
    rw [List.nil_append, linesOf]
    rw [if_pos (by rw [isNewline]; simp)]
  | cons a A2 ih =>
    rw [List.cons_append, linesOf]
    have ha : isNewline a = false := by
      rw [isNewline]
      simp only [decide_eq_false_iff_not]
      intro hh
      exact hA (by simp [hh])
    rw [if_neg (by simp [ha])]
    rw [ih (fun hm => hA (by simp [hm]))]

theorem split_first_nl {l : List Char} (h : '\n' ∈ l) :
    ∃ A B, l = A ++ '\n' :: B ∧ '\n' ∉ A := by
  induction l with
  | nil => cases h
  | cons c cs ih =>
    by_cases hc : c = '\n'
    · subst hc
      exact ⟨[], cs, rfl, by simp⟩
    · rcases List.mem_cons.mp h with h1 | h1
      · exact absurd h1.symm hc
      · obtain ⟨A, B, rfl, hA⟩ := ih h1
        exact ⟨c :: A, B, rfl, by simp [hA, Ne.symm hc]⟩

theorem linesOf_no_nl (l : List Char) : ∀ li ∈ linesOf l, '\n' ∉ li := by
  induction l with
  | nil => intro li h; simp [linesOf] at h; simp [h]
  | cons c cs ih =>
    intro li h
    rw [linesOf] at h
    by_cases hc : isNewline c = true
    · rw [if_pos hc] at h
      rcases List.mem_cons.mp h with rfl | h1
      · simp
      · exact ih li h1
    · rw [if_neg hc] at h
      cases hl : linesOf cs with
      | nil => exact absurd hl (linesOf_ne_nil cs)
      | cons li0 rest =>
        rw [hl] at h
        rcases List.mem_cons.mp h with rfl | h1
        · intro hm
          rcases List.mem_cons.mp hm with rfl | hm2
          · rw [isNewline] at hc; simp at hc
          · exact ih li0 (by rw [hl]; simp) hm2
        · exact ih li (by rw [hl]; simp [h1])

theorem linesOf_segIn_aux :
    ∀ (n : Nat) (l : List Char), l.length ≤ n →
      ∀ li ∈ linesOf l, SegIn li l := by
  intro n
  induction n with
  | zero =>
    intro l hl li hli
    have hnil : l = [] := by
      cases l with
      | nil => rfl
      | cons c cs => simp at hl
    subst hnil
    simp [linesOf] at hli
    subst hli
    exact segIn_nil []
  | succ n ih =>
    intro l hl li hli
    by_cases hnl : '\n' ∈ l
    · obtain ⟨A, B, rfl, hA⟩ := split_first_nl hnl
      rw [linesOf_split hA] at hli
      rcases List.mem_cons.mp hli with rfl | h1
      · exact ⟨[], '\n' :: B, rfl⟩
      · have hlen : B.length ≤ n := by
          simp at hl; omega
        exact segIn_append_left A (segIn_cons _ (ih B hlen li h1))
    · rw [linesOf_nlFree hnl] at hli
      simp at hli
      subst hli
      exact segIn_self _

theorem linesOf_segIn (l : List Char) : ∀ li ∈ linesOf l, SegIn li l :=
  linesOf_segIn_aux l.length l (le_refl _)

theorem segIn_nlFree_joinLines {w : List Char} (hw : w ≠ [])
    (hnl : '\n' ∉ w) :
    ∀ L : List (List Char), SegIn w (joinLines L) → ∃ li ∈ L, SegIn w li := by
  intro L
  induction L with
  | nil =>
    intro h
    obtain ⟨u, v, he⟩ := h
    rw [joinLines] at he
    cases w with
    | nil => exact absurd rfl hw
    | cons a as => simp at he
  | cons x xs ih =>
    intro h
    cases xs with
    | nil =>
      rw [joinLines] at h
      exact ⟨x, by simp, h⟩
    | cons y ys =>
      rw [show joinLines (x :: y :: ys) = x ++ '\n' :: joinLines (y :: ys)
        from rfl] at h
      rcases segIn_split hnl h with h1 | h1
      · exact ⟨x, by simp, h1⟩
      · obtain ⟨li, hli, hseg⟩ := ih h1
        exact ⟨li, by simp [hli], hseg⟩

theorem mem_joinLines {c : Char} :
    ∀ L : List (List Char), c ∈ joinLines L →
      (∃ li ∈ L, c ∈ li) ∨ c = '\n' := by
  intro L
  induction L with
  | nil => intro h; simp [joinLines] at h
  | cons x xs ih =>
    intro h
    cases xs with
    | nil =>
      rw [joinLines] at h
      exact Or.inl ⟨x, by simp, h⟩
    | cons y ys =>
      rw [show joinLines (x :: y :: ys) = x ++ '\n' :: joinLines (y :: ys)
        from rfl] at h
      rcases List.mem_append.mp h with h1 | h1
      · exact Or.inl ⟨x, by simp, h1⟩
      · rcases List.mem_cons.mp h1 with rfl | h2
        · exact Or.inr rfl
        · rcases ih h2 with ⟨li, hli, hc⟩ | h3
          · exact Or.inl ⟨li, by simp [hli], hc⟩
          · exact Or.inr h3

/-! ### Small utilities for the cleaning analysis -/

theorem isNewline_iff {c : Char} : isNewline c = true ↔ c = '\n' := by
  rw [isNewline]; simp

theorem isNewline_ws {c : Char} (h : isNewline c = true) : isJsWs c = true := by
  rw [isNewline_iff.mp h]
  rfl

theorem isSpaceTab_cases {c : Char} (h : isSpaceTab c = true) :
    c = ' ' ∨ c = '\t' := by
  rw [isSpaceTab] at h
  simpa using h

theorem isSpaceTab_ws {c : Char} (h : isSpaceTab c = true) : isJsWs c = true := by
  rcases isSpaceTab_cases h with rfl | rfl <;> rfl

theorem isSpaceTab_not_nl {c : Char} (h : isSpaceTab c = true) :
    isNewline c = false := by
  rcases isSpaceTab_cases h with rfl | rfl <;> rfl

theorem segIn_takeWhile (p : Char → Bool) (l : List Char) :
    SegIn (l.takeWhile p) l :=
  ⟨[], l.dropWhile p, by simp [List.takeWhile_append_dropWhile]⟩

theorem segIn_afterLastNl (r : List Char) : SegIn (afterLastNl r) r := by
  rw [afterLastNl]
  refine ⟨(r.reverse.dropWhile (fun c => !(isNewline c))).reverse, [], ?_⟩
  rw [List.append_nil, ← List.reverse_append, List.takeWhile_append_dropWhile]
  simp

theorem mem_afterLastNl {c : Char} {r : List Char} (h : c ∈ afterLastNl r) :
    isNewline c = false := by
  rw [afterLastNl] at h
  rw [List.mem_reverse] at h
  have := List.mem_takeWhile_imp h
  simpa using this

theorem segIn_filter_le (p : Char → Bool) {w l : List Char} (h : SegIn w l) :
    (w.filter p).length ≤ (l.filter p).length := by
  obtain ⟨u, v, rfl⟩ := h
  simp only [List.filter_append, List.length_append]
  omega

theorem segIn_replicate_count {w l : List Char} {c : Char}
    (hw : ∀ x ∈ w, x = c) (h : SegIn w l) :
    w.length ≤ (l.filter (fun x => x = c)).length := by
  have h1 : w.filter (fun x => x = c) = w := by
    apply List.filter_eq_self.mpr
    intro a ha
    simp [hw a ha]
  have := segIn_filter_le (fun x => x = c) h
  rw [h1] at this
  exact this

/-! ### The replacement functions preserve runs -/

theorem runPreserving_st : RunPreserving isSpaceTab stRep := by
  intro r _ _
  exact ⟨by simp [stRep], by intro c hc; simp [stRep] at hc; subst hc; rfl⟩

theorem runPreserving_nl3 : RunPreserving isNewline nl3Rep := by
  intro r hne hr
  rw [nl3Rep]
  split
  · refine ⟨by simp, ?_⟩
    intro c hc
    simp at hc
    subst hc
    rfl
  · exact ⟨hne, hr⟩

theorem runPreserving_dots : RunPreserving (fun c => c = '.') dotsRep := by
  intro r hne hr
  rw [dotsRep]
  split
  · refine ⟨by simp, ?_⟩
    intro c hc
    simp at hc
    simp [hc]
  · exact ⟨hne, hr⟩

theorem runPreserving_dash : RunPreserving (fun c => c = '-') dashRep := by
  intro r hne hr
  rw [dashRep]
  split
  · refine ⟨by simp, ?_⟩
    intro c hc
    simp at hc
    simp [hc]
  · exact ⟨hne, hr⟩

theorem runPreserving_und : RunPreserving (fun c => c = '_') undRep := by
  intro r hne hr
  rw [undRep]
  split
  · refine ⟨by simp, ?_⟩
    intro c hc
    simp at hc
    simp [hc]
  · exact ⟨hne, hr⟩

theorem runPreserving_wsNl : RunPreserving isJsWs wsNlRep := by
  intro r hne hr
  rw [wsNlRep]
  split
  · constructor
    · simp
    · intro c hc
      rcases List.mem_append.mp hc with h | h
      · exact hr c (mem_of_mem_segIn h (segIn_takeWhile _ r))
      · rcases List.mem_cons.mp h with rfl | h
        · rfl
        · rcases List.mem_cons.mp h with rfl | h
          · rfl
          · exact hr c (mem_of_mem_segIn h (segIn_afterLastNl r))
  · exact ⟨hne, hr⟩

/-! ### Transport of window predicates through the rewriting steps -/

theorem runsOf_mapRuns_zero (q : Char → Bool) {g : List Char → List Char}
    (hg : RunPreserving q g) (l : List Char) :
    runsOf q (mapRuns q g l) = (runsOf q l).map g := by
  have := runsOf_mapRuns q hg l [] (by simp)
  rw [mapRuns]
  rw [this, runsOf]

theorem segIn_pure_mapRuns_disjoint (q q' : Char → Bool)
    (hdisj : ∀ c, q' c = true → q c = false) {g' : List Char → List Char}
    (hg' : RunPreserving q' g') {w l : List Char} (hw : w ≠ [])
    (hwq : ∀ c ∈ w, q c = true)
    (h : SegIn w (mapRuns q' g' l)) : SegIn w l := by
  obtain ⟨r, hr, hseg⟩ := segIn_run q hw hwq h
  rw [runsOf_mapRuns_disjoint q q' hdisj hg' l] at hr
  exact segIn_trans hseg (runsOf_mem_segIn q hr)

theorem segIn_nlFree_trimLines {w l : List Char} (hw : w ≠ [])
    (hnl : '\n' ∉ w)
    (h : SegIn w (joinLines ((linesOf l).map jsTrim))) : SegIn w l := by
  obtain ⟨li, hli, hseg⟩ := segIn_nlFree_joinLines hw hnl _ h
  obtain ⟨li0, hli0, rfl⟩ := List.mem_map.mp hli
  exact segIn_trans (segIn_trans hseg (segIn_jsTrim li0))
    (linesOf_segIn l li0 hli0)

theorem segIn_wsNoNl_mapWsNl {w l : List Char} (hw : w ≠ [])
    (hws : ∀ c ∈ w, isJsWs c = true) (hnl : '\n' ∉ w)
    (h : SegIn w (mapRuns isJsWs wsNlRep l)) : SegIn w l := by
  obtain ⟨r2, hr2, hseg⟩ := segIn_run isJsWs hw hws h
  rw [runsOf_mapRuns_zero isJsWs runPreserving_wsNl l] at hr2
  obtain ⟨r, hr, rfl⟩ := List.mem_map.mp hr2
  have hrl : SegIn r l := runsOf_mem_segIn isJsWs hr
  rw [wsNlRep] at hseg
  split at hseg
  · rcases segIn_split hnl hseg with h1 | h1
    · exact segIn_trans (segIn_trans h1 (segIn_takeWhile _ r)) hrl
    · have h1b : SegIn w ([] ++ '\n' :: afterLastNl r) := h1
      rcases segIn_split hnl h1b with h2 | h2
      · exfalso
        have hlen := segIn_length_le h2
        simp only [List.length_nil, Nat.le_zero] at hlen
        exact hw (List.length_eq_zero.mp hlen)
      · exact segIn_trans (segIn_trans h2 (segIn_afterLastNl r)) hrl
  · exact segIn_trans hseg hrl

/-! ### Uniformity of whitespace runs under `NoMixWs` -/

theorem uniform_of_adjacent (P : Char → Bool) :
    ∀ (x : Char) (xs : List Char),
      (∀ a b, SegIn [a, b] (x :: xs) → P a = P b) →
      ∀ e ∈ x :: xs, P e = P x := by
  intro x xs
  induction xs generalizing x with
  | nil =>
    intro _ e he
    simp at he
    subst he
    rfl
  | cons y ys ih =>
    intro hadj e he
    rcases List.mem_cons.mp he with rfl | he2
    · rfl
    · have hyx : P y = P x := (hadj x y ⟨[], ys, rfl⟩).symm
      have := ih y (fun a b hab => hadj a b (segIn_cons x hab)) e he2
      rw [this, hyx]

theorem run_uniform_nl {l r : List Char} (hmix : NoMixWs l)
    (hr : r ∈ runsOf isJsWs l) :
    (∀ c ∈ r, isNewline c = true) ∨ (∀ c ∈ r, isNewline c = false) := by
  obtain ⟨hne, hpure⟩ := runsOf_mem_pure isJsWs hr
  have hadj : ∀ a b, SegIn [a, b] r → isNewline a = isNewline b := by
    intro a b hab
    have hseg := segIn_trans hab (runsOf_mem_segIn isJsWs hr)
    exact hmix a b hseg (hpure a (mem_of_mem_segIn (by simp) hab))
      (hpure b (mem_of_mem_segIn (by simp) hab))
  cases r with
  | nil => exact absurd rfl hne
  | cons x xs =>
    cases hx : isNewline x with
    | true =>
      left
      intro c hc
      rw [uniform_of_adjacent isNewline x xs hadj c hc, hx]
    | false =>
      right
      intro c hc
      rw [uniform_of_adjacent isNewline x xs hadj c hc, hx]

/-! ### The individual steps do nothing on normalized text -/

theorem segIn_replicate_of_pure {r : List Char} {c : Char} (k : Nat)
    (hpure : ∀ x ∈ r, x = c) (hk : k ≤ r.length) :
    SegIn (List.replicate k c) r := by
  have hrep : r = List.replicate r.length c := List.eq_replicate_of_mem hpure
  refine ⟨[], List.replicate (r.length - k) c, ?_⟩
  rw [List.nil_append]
  conv_lhs => rw [hrep]
  rw [← List.replicate_add]
  congr 1
  omega

theorem stRep_noop {l : List Char} (htab : NoTab l) (hss : NoStSt l) :
    ∀ r ∈ runsOf isSpaceTab l, stRep r = r := by
  intro r hr
  obtain ⟨hne, hpure⟩ := runsOf_mem_pure _ hr
  have hrl := runsOf_mem_segIn _ hr
  cases r with
  | nil => exact absurd rfl hne
  | cons a as =>
    cases as with
    | nil =>
      have ha := hpure a (by simp)
      rcases isSpaceTab_cases ha with rfl | rfl
      · rfl
      · exact absurd (mem_of_segIn_single hrl) htab
    | cons b bs =>
      exfalso
      have hab : SegIn [a, b] l := segIn_trans ⟨[], bs, rfl⟩ hrl
      rcases hss a b hab with h | h
      · rw [hpure a (by simp)] at h; cases h
      · rw [hpure b (by simp)] at h; cases h

theorem nl3Rep_noop {l : List Char} (h3 : NoNl3 l) :
    ∀ r ∈ runsOf isNewline l, nl3Rep r = r := by
  intro r hr
  obtain ⟨hne, hpure⟩ := runsOf_mem_pure _ hr
  rw [nl3Rep]
  split
  · exfalso
    rename_i hlen
    apply h3
    have : SegIn (List.replicate 3 '\n') r :=
      segIn_replicate_of_pure 3 (fun x hx => isNewline_iff.mp (hpure x hx)) hlen
    exact segIn_trans (by simpa using this) (runsOf_mem_segIn _ hr)
  · rfl

theorem dotsRep_noop {l : List Char} (h4 : NoDots4 l) :
    ∀ r ∈ runsOf (fun c => c = '.') l, dotsRep r = r := by
  intro r hr
  obtain ⟨hne, hpure⟩ := runsOf_mem_pure _ hr
  rw [dotsRep]
  split
  · exfalso
    rename_i hlen
    apply h4
    have : SegIn (List.replicate 4 '.') r :=
      segIn_replicate_of_pure 4 (fun x hx => by simpa using hpure x hx) hlen
    exact segIn_trans (by simpa using this) (runsOf_mem_segIn _ hr)
  · rfl

theorem dashRep_noop {l : List Char} (h3 : NoDash3 l) :
    ∀ r ∈ runsOf (fun c => c = '-') l, dashRep r = r := by
  intro r hr
  obtain ⟨hne, hpure⟩ := runsOf_mem_pure _ hr
  rw [dashRep]
  split
  · exfalso
    rename_i hlen
    apply h3
    have : SegIn (List.replicate 3 '-') r :=
      segIn_replicate_of_pure 3 (fun x hx => by simpa using hpure x hx) hlen
    exact segIn_trans (by simpa using this) (runsOf_mem_segIn _ hr)
  · rfl

theorem undRep_noop {l : List Char} (h3 : NoUnd3 l) :
    ∀ r ∈ runsOf (fun c => c = '_') l, undRep r = r := by
  intro r hr
  obtain ⟨hne, hpure⟩ := runsOf_mem_pure _ hr
  rw [undRep]
  split
  · exfalso
    rename_i hlen
    apply h3
    have : SegIn (List.replicate 3 '_') r :=
      segIn_replicate_of_pure 3 (fun x hx => by simpa using hpure x hx) hlen
    exact segIn_trans (by simpa using this) (runsOf_mem_segIn _ hr)
  · rfl

theorem wsNlRep_noop {l : List Char} (hmix : NoMixWs l) (h3 : NoNl3 l) :
    ∀ r ∈ runsOf isJsWs l, wsNlRep r = r := by
  intro r hr
  rw [wsNlRep]
  split
  · exfalso
    rename_i hcount
    rcases run_uniform_nl hmix hr with hall | hfree
    · have hfil : r.filter isNewline = r :=
        List.filter_eq_self.mpr hall
      rw [hfil] at hcount
      apply h3
      have : SegIn (List.replicate 3 '\n') r :=
        segIn_replicate_of_pure 3
          (fun x hx => isNewline_iff.mp (hall x hx)) hcount
      exact segIn_trans (by simpa using this) (runsOf_mem_segIn _ hr)
    · have hfil : r.filter isNewline = [] := by
        apply List.filter_eq_nil_iff.mpr
        intro a ha
        simp [hfree a ha]
      rw [hfil] at hcount
      simp at hcount
  · rfl

/-! ### Establishing the normal form, step by step -/

theorem segIn_transport {w l2 l : List Char} (h : ¬ SegIn w l)
    (hsub : SegIn l2 l) : ¬ SegIn w l2 :=
  fun hw => h (segIn_trans hw hsub)

theorem noMix_of_segIn {l2 l : List Char} (h : NoMixWs l) (hsub : SegIn l2 l) :
    NoMixWs l2 :=
  fun a b hab ha hb => h a b (segIn_trans hab hsub) ha hb

theorem noTab_mapST (l : List Char) : NoTab (mapRuns isSpaceTab stRep l) := by
  intro hmem
  have hseg := segIn_single_of_mem hmem
  obtain ⟨r, hr, hwr⟩ := segIn_run isSpaceTab (by simp)
    (by intro c hc; simp at hc; subst hc; rfl) hseg
  rw [runsOf_mapRuns_zero _ runPreserving_st] at hr
  obtain ⟨r0, _, rfl⟩ := List.mem_map.mp hr
  have := mem_of_segIn_single hwr
  simp [stRep] at this

theorem noStSt_mapST (l : List Char) : NoStSt (mapRuns isSpaceTab stRep l) := by
  intro a b hab
  by_cases ha : isSpaceTab a = true
  · by_cases hb : isSpaceTab b = true
    · exfalso
      obtain ⟨r, hr, hwr⟩ := segIn_run isSpaceTab (by simp)
        (by intro c hc
            rcases List.mem_cons.mp hc with rfl | hc
            · exact ha
            · simp at hc; subst hc; exact hb) hab
      rw [runsOf_mapRuns_zero _ runPreserving_st] at hr
      obtain ⟨r0, _, rfl⟩ := List.mem_map.mp hr
      have := segIn_length_le hwr
      simp [stRep] at this
    · exact Or.inr (by simpa using hb)
  · exact Or.inl (by simpa using ha)

theorem dotsRep_short (r : List Char) : (dotsRep r).length < 4 := by
  rw [dotsRep]; split
  · simp
  · omega

theorem dashRep_short (r : List Char) : (dashRep r).length < 3 := by
  rw [dashRep]; split
  · simp
  · omega

theorem undRep_short (r : List Char) : (undRep r).length < 3 := by
  rw [undRep]; split
  · simp
  · omega

theorem noDots4_mapDots (l : List Char) :
    NoDots4 (mapRuns (fun c => c = '.') dotsRep l) := by
  intro hseg
  obtain ⟨r, hr, hwr⟩ := segIn_run (fun c => c = '.') (by simp)
    (by intro c hc; simp at hc; simp [hc]) hseg
  rw [runsOf_mapRuns_zero _ runPreserving_dots] at hr
  obtain ⟨r0, _, rfl⟩ := List.mem_map.mp hr
  have h1 := segIn_length_le hwr
  have h2 := dotsRep_short r0
  simp at h1
  omega

theorem noDash3_mapDash (l : List Char) :
    NoDash3 (mapRuns (fun c => c = '-') dashRep l) := by
  intro hseg
  obtain ⟨r, hr, hwr⟩ := segIn_run (fun c => c = '-') (by simp)
    (by intro c hc; simp at hc; simp [hc]) hseg
  rw [runsOf_mapRuns_zero _ runPreserving_dash] at hr
  obtain ⟨r0, _, rfl⟩ := List.mem_map.mp hr
  have h1 := segIn_length_le hwr
  have h2 := dashRep_short r0
  simp at h1
  omega

theorem noUnd3_mapUnd (l : List Char) :
    NoUnd3 (mapRuns (fun c => c = '_') undRep l) := by
  intro hseg
  obtain ⟨r, hr, hwr⟩ := segIn_run (fun c => c = '_') (by simp)
    (by intro c hc; simp at hc; simp [hc]) hseg
  rw [runsOf_mapRuns_zero _ runPreserving_und] at hr
  obtain ⟨r0, _, rfl⟩ := List.mem_map.mp hr
  have h1 := segIn_length_le hwr
  have h2 := undRep_short r0
  simp at h1
  omega

theorem wsNlRep_nlCount (r : List Char) :
    ((wsNlRep r).filter isNewline).length ≤ 2 := by
  rw [wsNlRep]
  split
  · rename_i hcount
    have hpfx : (r.takeWhile (fun c => !(isNewline c))).filter isNewline = [] := by
      apply List.filter_eq_nil_iff.mpr
      intro a ha
      have := List.mem_takeWhile_imp ha
      simp at this
      simp [this]
    have hsfx : (afterLastNl r).filter isNewline = [] := by
      apply List.filter_eq_nil_iff.mpr
      intro a ha
      simp [mem_afterLastNl ha]
    rw [List.filter_append, hpfx, List.nil_append]
    rw [List.filter_cons_of_pos (by rfl), List.filter_cons_of_pos (by rfl)]
    rw [hsfx]
    simp
  · rename_i hcount
    omega

theorem noNl3_mapWsNl (l : List Char) :
    NoNl3 (mapRuns isJsWs wsNlRep l) := by
  intro hseg
  obtain ⟨r, hr, hwr⟩ := segIn_run isJsWs (by simp)
    (by intro c hc
        simp at hc
        subst hc
        rfl) hseg
  rw [runsOf_mapRuns_zero _ runPreserving_wsNl] at hr
  obtain ⟨r0, _, rfl⟩ := List.mem_map.mp hr
  have h1 : (List.replicate 3 '\n').length ≤
      ((wsNlRep r0).filter (fun x => x = '\n')).length := by
    apply segIn_replicate_count
    · intro x hx; simpa using hx
    · simpa using hwr
  have h2 := wsNlRep_nlCount r0
  have h3 : ((wsNlRep r0).filter (fun x => x = '\n')) =
      ((wsNlRep r0).filter isNewline) := rfl
  rw [h3] at h1
  simp at h1
  omega

theorem joinLines_head {b : Char} :
    ∀ L : List (List Char), (joinLines L).head? = some b →
      (∃ li ∈ L, li.head? = some b) ∨ b = '\n' := by
  intro L
  cases L with
  | nil => intro h; simp [joinLines] at h
  | cons x xs =>
    cases xs with
    | nil =>
      intro h
      rw [joinLines] at h
      exact Or.inl ⟨x, by simp, h⟩
    | cons y ys =>
      intro h
      rw [show joinLines (x :: y :: ys) = x ++ '\n' :: joinLines (y :: ys)
        from rfl] at h
      cases x with
      | nil =>
        simp only [List.nil_append, List.head?_cons, Option.some.injEq] at h
        exact Or.inr h.symm
      | cons c cs =>
        simp only [List.cons_append, List.head?_cons, Option.some.injEq] at h
        exact Or.inl ⟨c :: cs, by simp, by simp [h]⟩

theorem segIn_pair_joinLines {a b : Char} :
    ∀ L : List (List Char), SegIn [a, b] (joinLines L) →
      (∃ li ∈ L, SegIn [a, b] li) ∨
      (b = '\n' ∧ ∃ li ∈ L, li.getLast? = some a) ∨
      (a = '\n' ∧ ∃ li ∈ L, li.head? = some b) ∨
      (a = '\n' ∧ b = '\n') := by
  intro L
  induction L with
  | nil =>
    intro h
    have := segIn_length_le h
    simp [joinLines] at this
  | cons x xs ih =>
    intro h
    cases xs with
    | nil =>
      rw [joinLines] at h
      exact Or.inl ⟨x, by simp, h⟩
    | cons y ys =>
      rw [show joinLines (x :: y :: ys) = x ++ '\n' :: joinLines (y :: ys)
        from rfl] at h
      rcases segIn_pair_append h with h1 | h1 | ⟨hlast, hhead⟩
      · exact Or.inl ⟨x, by simp, h1⟩
      · rcases segIn_pair_append
          (show SegIn [a, b] (['\n'] ++ joinLines (y :: ys)) from h1) with
          h2 | h2 | ⟨hl2, hh2⟩
        · have := segIn_length_le h2
          simp at this
        · rcases ih h2 with ⟨li, hli, hs⟩ | ⟨hb, li, hli, hs⟩ |
            ⟨hA, li, hli, hs⟩ | hx
          · exact Or.inl ⟨li, by simp [hli], hs⟩
          · exact Or.inr (Or.inl ⟨hb, li, by simp [hli], hs⟩)
          · exact Or.inr (Or.inr (Or.inl ⟨hA, li, by simp [hli], hs⟩))
          · exact Or.inr (Or.inr (Or.inr hx))
        · have hA : a = '\n' := by have := hl2; simp at this; exact this.symm
          rcases joinLines_head (y :: ys) hh2 with ⟨li, hli, hs⟩ | hb
          · exact Or.inr (Or.inr (Or.inl ⟨hA, li, by simp [hli], hs⟩))
          · exact Or.inr (Or.inr (Or.inr ⟨hA, hb⟩))
      · have hb : b = '\n' := by have := hhead; simp at this; exact this.symm
        exact Or.inr (Or.inl ⟨hb, x, by simp, hlast⟩)

theorem noMix_trimLines (l : List Char) :
    NoMixWs (joinLines ((linesOf l).map jsTrim)) := by
  intro a b hab ha hb
  rcases segIn_pair_joinLines _ hab with ⟨li, hli, hseg⟩ |
    ⟨rfl, li, hli, hlast⟩ | ⟨rfl, li, hli, hhead⟩ | ⟨rfl, rfl⟩
  · obtain ⟨li0, hli0, rfl⟩ := List.mem_map.mp hli
    have hno := linesOf_no_nl l li0 hli0
    have hmema : a ∈ li0 := mem_of_mem_segIn (by simp)
      (segIn_trans hseg (segIn_jsTrim li0))
    have hmemb : b ∈ li0 := mem_of_mem_segIn (by simp)
      (segIn_trans hseg (segIn_jsTrim li0))
    have ha2 : isNewline a = false := by
      rw [isNewline]
      simp only [decide_eq_false_iff_not]
      intro hEq
      subst hEq
      exact hno hmema
    have hb2 : isNewline b = false := by
      rw [isNewline]
      simp only [decide_eq_false_iff_not]
      intro hEq
      subst hEq
      exact hno hmemb
    rw [ha2, hb2]
  · obtain ⟨li0, _, rfl⟩ := List.mem_map.mp hli
    exact absurd ha (by simp [lastNonWs_jsTrim li0 a hlast])
  · obtain ⟨li0, _, rfl⟩ := List.mem_map.mp hli
    exact absurd hb (by simp [headNonWs_jsTrim li0 b hhead])
  · rfl

theorem wsNlRep_of_nlFree {r : List Char}
    (hfree : ∀ c ∈ r, isNewline c = false) : wsNlRep r = r := by
  rw [wsNlRep]
  rw [if_neg]
  rw [List.filter_eq_nil_iff.mpr (fun a ha => by simp [hfree a ha])]
  simp

theorem wsNlRep_of_allNl {r : List Char}
    (hall : ∀ c ∈ r, isNewline c = true) :
    ∀ c ∈ wsNlRep r, c = '\n' := by
  intro c hc
  rw [wsNlRep] at hc
  split at hc
  · have hpfx : r.takeWhile (fun c => !(isNewline c)) = [] := by
      cases hr : r with
      | nil => rfl
      | cons x xs =>
        rw [List.takeWhile_cons_of_neg]
        simp [hall x (by rw [hr]; simp)]
    have hsfx : afterLastNl r = [] := by
      cases hs : afterLastNl r with
      | nil => rfl
      | cons x xs =>
        exfalso
        have h1 : x ∈ afterLastNl r := by rw [hs]; simp
        have h2 := mem_afterLastNl h1
        have h3 : x ∈ r := mem_of_mem_segIn h1 (segIn_afterLastNl r)
        rw [hall x h3] at h2
        cases h2
    rw [hpfx, hsfx] at hc
    simp at hc
    subst hc
    rfl
  · exact isNewline_iff.mp (hall c hc)

theorem noMix_mapWsNl {l : List Char} (hmix : NoMixWs l) :
    NoMixWs (mapRuns isJsWs wsNlRep l) := by
  intro a b hab ha hb
  obtain ⟨r2, hr2, hseg⟩ := segIn_run isJsWs (by simp)
    (by intro c hc
        rcases List.mem_cons.mp hc with rfl | hc
        · exact ha
        · simp at hc; subst hc; exact hb) hab
  rw [runsOf_mapRuns_zero _ runPreserving_wsNl] at hr2
  obtain ⟨r, hr, rfl⟩ := List.mem_map.mp hr2
  rcases run_uniform_nl hmix hr with hall | hfree
  · have hA : a = '\n' := wsNlRep_of_allNl hall a
      (mem_of_mem_segIn (by simp) hseg)
    have hB : b = '\n' := wsNlRep_of_allNl hall b
      (mem_of_mem_segIn (by simp) hseg)
    rw [hA, hB]
  · rw [wsNlRep_of_nlFree hfree] at hseg
    exact hmix a b (segIn_trans hseg (runsOf_mem_segIn _ hr)) ha hb

/-! ### Decomposition of the pipeline into its three stages -/

theorem cleanChars_decomp (x : List Char) :
    cleanChars x = cleanC (cleanB (cleanA x)) := rfl

/-! ### The quote maps and, on undeleted text, the deletions are identities -/

theorem quote1_id (l : List Char) :
    l.map (fun c => if c = '"' then '"' else c) = l := by
  conv_rhs => rw [← List.map_id l]
  apply List.map_congr_left
  intro a _
  by_cases h : a = '"'
  · simp [h]
  · simp [h]

theorem quote2_id (l : List Char) :
    l.map (fun c => if c = '\'' then '\'' else c) = l := by
  conv_rhs => rw [← List.map_id l]
  apply List.map_congr_left
  intro a _
  by_cases h : a = '\''
  · simp [h]
  · simp [h]

theorem filter_control_id {l : List Char} (h : NoDeleted l) :
    l.filter (fun c => !(isRemovedControl c)) = l := by
  apply List.filter_eq_self.mpr
  intro a ha
  have := h a ha
  rw [isDeleted] at this
  simp only [Bool.or_eq_false_iff] at this
  simp [this.1.1]

theorem filter_zw_id {l : List Char} (h : NoDeleted l) :
    l.filter (fun c => !(isZeroWidth c)) = l := by
  apply List.filter_eq_self.mpr
  intro a ha
  have := h a ha
  rw [isDeleted] at this
  simp only [Bool.or_eq_false_iff] at this
  simp [this.1.2]

theorem filter_dec_id {l : List Char} (h : NoDeleted l) :
    l.filter (fun c => !(isDecorative c)) = l := by
  apply List.filter_eq_self.mpr
  intro a ha
  have := h a ha
  rw [isDeleted] at this
  simp only [Bool.or_eq_false_iff] at this
  simp [this.2]

/-! ### Characters introduced by each rewriting step -/

theorem mem_mapST {l : List Char} {c : Char}
    (hc : c ∈ mapRuns isSpaceTab stRep l) : c ∈ l ∨ c = ' ' := by
  refine @mem_mapRuns isSpaceTab stRep (fun c => c = ' ') ?_ l c hc
  intro r c hcr
  rw [stRep] at hcr
  simp at hcr
  exact Or.inr hcr

theorem mem_mapNl3 {l : List Char} {c : Char}
    (hc : c ∈ mapRuns isNewline nl3Rep l) : c ∈ l ∨ c = '\n' := by
  refine @mem_mapRuns isNewline nl3Rep (fun c => c = '\n') ?_ l c hc
  intro r c hcr
  rw [nl3Rep] at hcr
  split at hcr
  · simp at hcr
    exact Or.inr hcr
  · exact Or.inl hcr

theorem mem_mapDots {l : List Char} {c : Char}
    (hc : c ∈ mapRuns (fun c => c = '.') dotsRep l) : c ∈ l ∨ c = '.' := by
  refine @mem_mapRuns (fun c => c = '.') dotsRep (fun c => c = '.') ?_ l c hc
  intro r c hcr
  rw [dotsRep] at hcr
  split at hcr
  · simp at hcr
    exact Or.inr hcr
  · exact Or.inl hcr

theorem mem_mapDash {l : List Char} {c : Char}
    (hc : c ∈ mapRuns (fun c => c = '-') dashRep l) : c ∈ l ∨ c = '-' := by
  refine @mem_mapRuns (fun c => c = '-') dashRep (fun c => c = '-') ?_ l c hc
  intro r c hcr
  rw [dashRep] at hcr
  split at hcr
  · simp at hcr
    exact Or.inr hcr
  · exact Or.inl hcr

theorem mem_mapUnd {l : List Char} {c : Char}
    (hc : c ∈ mapRuns (fun c => c = '_') undRep l) : c ∈ l ∨ c = '_' := by
  refine @mem_mapRuns (fun c => c = '_') undRep (fun c => c = '_') ?_ l c hc
  intro r c hcr
  rw [undRep] at hcr
  split at hcr
  · simp at hcr
    exact Or.inr hcr
  · exact Or.inl hcr

theorem mem_mapWsNl {l : List Char} {c : Char}
    (hc : c ∈ mapRuns isJsWs wsNlRep l) : c ∈ l ∨ c = '\n' := by
  refine @mem_mapRuns isJsWs wsNlRep (fun c => c = '\n') ?_ l c hc
  intro r c hcr
  rw [wsNlRep] at hcr
  split at hcr
  · rcases List.mem_append.mp hcr with h1 | h1
    · exact Or.inl (mem_of_mem_segIn h1 (segIn_takeWhile _ r))
    · rcases List.mem_cons.mp h1 with rfl | h2
      · exact Or.inr rfl
      · rcases List.mem_cons.mp h2 with rfl | h3
        · exact Or.inr rfl
        · exact Or.inl (mem_of_mem_segIn h3 (segIn_afterLastNl r))
  · exact Or.inl hcr

theorem mem_jsTrim {l : List Char} {c : Char} (hc : c ∈ jsTrim l) : c ∈ l :=
  mem_of_mem_segIn hc (segIn_jsTrim l)

theorem mem_trimLines {l : List Char} {c : Char}
    (hc : c ∈ joinLines ((linesOf l).map jsTrim)) : c ∈ l ∨ c = '\n' := by
  rcases mem_joinLines _ hc with ⟨li, hli, hcli⟩ | h
  · obtain ⟨li0, hli0, rfl⟩ := List.mem_map.mp hli
    exact Or.inl (mem_of_mem_segIn (mem_jsTrim hcli) (linesOf_segIn l li0 hli0))
  · exact Or.inr h

/-! ### The pipeline deletes deleted characters and introduces none -/

theorem noDeleted_cleanA {x : List Char} (h : NoDeleted x) :
    NoDeleted (cleanA x) := by
  intro c hc
  rw [cleanA] at hc
  rcases mem_mapST hc with h1 | rfl
  · rcases mem_mapNl3 h1 with h2 | rfl
    · rcases mem_mapST h2 with h3 | rfl
      · exact h c h3
      · decide
    · decide
  · decide

theorem noDeleted_mapDots {x : List Char} (h : NoDeleted x) :
    NoDeleted (mapRuns (fun c => c = '.') dotsRep x) := by
  intro c hc
  rcases mem_mapDots hc with h1 | rfl
  · exact h c h1
  · decide

theorem noDeleted_mapDash {x : List Char} (h : NoDeleted x) :
    NoDeleted (mapRuns (fun c => c = '-') dashRep x) := by
  intro c hc
  rcases mem_mapDash hc with h1 | rfl
  · exact h c h1
  · decide

theorem noDeleted_mapUnd {x : List Char} (h : NoDeleted x) :
    NoDeleted (mapRuns (fun c => c = '_') undRep x) := by
  intro c hc
  rcases mem_mapUnd hc with h1 | rfl
  · exact h c h1
  · decide

theorem noDeleted_cleanC {x : List Char} (h : NoDeleted x) :
    NoDeleted (cleanC x) := by
  intro c hc
  rw [cleanC] at hc
  rcases mem_mapWsNl (mem_jsTrim hc) with h1 | rfl
  · rcases mem_trimLines h1 with h2 | rfl
    · exact h c h2
    · decide
  · decide

/-! ### On undeleted input the deletion stage reduces to the collapses -/

theorem cleanB_eq {y : List Char} (h : NoDeleted y) :
    cleanB y = mapRuns (fun c => c = '_') undRep
      (mapRuns (fun c => c = '-') dashRep
        (mapRuns (fun c => c = '.') dotsRep y)) := by
  rw [cleanB, filter_control_id h, filter_zw_id h,
    filter_dec_id (noDeleted_mapUnd (noDeleted_mapDash (noDeleted_mapDots h))),
    quote1_id, quote2_id]

theorem noDeleted_cleanChars {x : List Char} (h : NoDeleted x) :
    NoDeleted (cleanChars x) := by
  rw [cleanChars_decomp, cleanB_eq (noDeleted_cleanA h)]
  exact noDeleted_cleanC
    (noDeleted_mapUnd (noDeleted_mapDash (noDeleted_mapDots (noDeleted_cleanA h))))

/-! ### Under the whitespace normal form every line is already trimmed -/

theorem lines_trimmed_aux :
    ∀ (n : Nat) (l : List Char), l.length ≤ n → NoMixWs l → HeadOkNl l →
      LastOkNl l → ∀ li ∈ linesOf l, HeadNonWs li ∧ LastNonWs li := by
  intro n
  induction n with
  | zero =>
    intro l hl _ _ _ li hli
    have hnil : l = [] := by
      cases l with
      | nil => rfl
      | cons c cs => simp at hl
    subst hnil
    simp [linesOf] at hli
    subst hli
    constructor
    · intro c hc
      simp at hc
    · intro c hc
      simp at hc
  | succ n ih =>
    intro l hl hmix hhead hlast li hli
    by_cases hnl : '\n' ∈ l
    · obtain ⟨A, B, rfl, hA⟩ := split_first_nl hnl
      rw [linesOf_split hA] at hli
      rcases List.mem_cons.mp hli with rfl | h1
      · constructor
        · intro c hc
          have hc2 : (li ++ '\n' :: B).head? = some c := by
            cases li with
            | nil => simp at hc
            | cons a A2 =>
              simp at hc
              subst hc
              rfl
          rcases hhead c hc2 with h | rfl
          · exact h
          · exact absurd (List.mem_of_mem_head? hc) hA
        · intro c hc
          obtain ⟨A2, rfl⟩ := List.getLast?_eq_some_iff.mp hc
          by_contra hws
          have hws2 : isJsWs c = true := by
            cases hx : isJsWs c with
            | false => exact absurd hx hws
            | true => rfl
          have hseg : SegIn [c, '\n'] ((A2 ++ [c]) ++ '\n' :: B) :=
            ⟨A2, B, by simp⟩
          have := hmix c '\n' hseg hws2 rfl
          have hc3 : c = '\n' := by
            rw [show isNewline '\n' = true from rfl] at this
            exact isNewline_iff.mp this
          exact hA (by simp [hc3])
      · have hlen : B.length ≤ n := by
          simp at hl
          omega
        have hmixB : NoMixWs B :=
          noMix_of_segIn hmix ⟨A ++ ['\n'], [], by simp⟩
        have hheadB : HeadOkNl B := by
          intro c hc
          cases B with
          | nil => simp at hc
          | cons b B2 =>
            have hcb : b = c := by simpa using hc
            subst hcb
            by_cases hws : isJsWs b = true
            · have hseg : SegIn ['\n', b] (A ++ '\n' :: b :: B2) :=
                ⟨A, B2, by simp⟩
              have := hmix '\n' b hseg rfl hws
              right
              exact isNewline_iff.mp this.symm
            · left
              cases hx : isJsWs b with
              | false => rfl
              | true => exact absurd hx hws
        have hlastB : LastOkNl B := by
          intro c hc
          have hBne : B ≠ [] := by
            intro hB
            rw [hB] at hc
            simp at hc
          apply hlast c
          rw [List.getLast?_append_of_ne_nil A (by simp)]
          rw [show ('\n' :: B) = ['\n'] ++ B from rfl]
          rw [List.getLast?_append_of_ne_nil ['\n'] hBne]
          exact hc
        exact ih B hlen hmixB hheadB hlastB li h1
    · rw [linesOf_nlFree hnl] at hli
      simp at hli
      subst hli
      constructor
      · intro c hc
        rcases hhead c hc with h | rfl
        · exact h
        · exact absurd (List.mem_of_mem_head? hc) hnl
      · intro c hc
        rcases hlast c hc with h | rfl
        · exact h
        · exact absurd (List.mem_of_mem_getLast? hc) hnl

theorem lines_trimmed {l : List Char} (hmix : NoMixWs l) (hhead : HeadOkNl l)
    (hlast : LastOkNl l) : ∀ li ∈ linesOf l, HeadNonWs li ∧ LastNonWs li :=
  lines_trimmed_aux l.length l (le_refl _) hmix hhead hlast

theorem trimLines_eq_self {l : List Char} (hmix : NoMixWs l)
    (hhead : HeadOkNl l) (hlast : LastOkNl l) :
    joinLines ((linesOf l).map jsTrim) = l := by
  have hmap : (linesOf l).map jsTrim = (linesOf l).map id :=
    List.map_eq_map_iff.mpr (fun li hli =>
      jsTrim_eq_self (lines_trimmed hmix hhead hlast li hli).1
        (lines_trimmed hmix hhead hlast li hli).2)
  rw [hmap, List.map_id, joinLines_linesOf]

/-! ### Transport of windows back through the final and collapse stages -/

theorem segIn_st_cleanC {w y : List Char} (hw : w ≠ [])
    (hst : ∀ c ∈ w, isSpaceTab c = true)
    (h : SegIn w (cleanC y)) : SegIn w y := by
  have hws : ∀ c ∈ w, isJsWs c = true := fun c hc => isSpaceTab_ws (hst c hc)
  have hnl : '\n' ∉ w := by
    intro hm
    have := isSpaceTab_not_nl (hst _ hm)
    rw [isNewline] at this
    simp at this
  rw [cleanC] at h
  have h1 := segIn_trans h (segIn_jsTrim _)
  have h2 := segIn_wsNoNl_mapWsNl hw hws hnl h1
  exact segIn_nlFree_trimLines hw hnl h2

theorem segIn_nlFree_cleanC {w y : List Char} (hw : w ≠ [])
    (hnl : '\n' ∉ w) (q : Char → Bool) (hq : ∀ c ∈ w, q c = true)
    (hdisj : ∀ c, isJsWs c = true → q c = false)
    (h : SegIn w (cleanC y)) : SegIn w y := by
  rw [cleanC] at h
  have h1 := segIn_trans h (segIn_jsTrim _)
  have h2 := segIn_pure_mapRuns_disjoint q isJsWs hdisj runPreserving_wsNl
    hw hq h1
  exact segIn_nlFree_trimLines hw hnl h2

theorem segIn_st_back {w y : List Char} (hw : w ≠ [])
    (hst : ∀ c ∈ w, isSpaceTab c = true)
    (h : SegIn w (cleanC (mapRuns (fun c => c = '_') undRep
      (mapRuns (fun c => c = '-') dashRep
        (mapRuns (fun c => c = '.') dotsRep y))))) : SegIn w y := by
  have h1 := segIn_st_cleanC hw hst h
  have h2 := segIn_pure_mapRuns_disjoint isSpaceTab (fun c => c = '_')
    (by intro c hc; simp at hc; subst hc; decide) runPreserving_und hw hst h1
  have h3 := segIn_pure_mapRuns_disjoint isSpaceTab (fun c => c = '-')
    (by intro c hc; simp at hc; subst hc; decide) runPreserving_dash hw hst h2
  exact segIn_pure_mapRuns_disjoint isSpaceTab (fun c => c = '.')
    (by intro c hc; simp at hc; subst hc; decide) runPreserving_dots hw hst h3

/-! ### Every window invariant holds of the cleaner's output -/

theorem cleanChars_eq_of_noDeleted {x : List Char} (h : NoDeleted x) :
    cleanChars x = cleanC (mapRuns (fun c => c = '_') undRep
      (mapRuns (fun c => c = '-') dashRep
        (mapRuns (fun c => c = '.') dotsRep (cleanA x)))) := by
  rw [cleanChars_decomp, cleanB_eq (noDeleted_cleanA h)]

theorem noTab_cleanChars {x : List Char} (h : NoDeleted x) :
    NoTab (cleanChars x) := by
  rw [cleanChars_eq_of_noDeleted h]
  intro hmem
  have hseg := segIn_single_of_mem hmem
  have hback := segIn_st_back (by simp)
    (by intro c hc; simp at hc; subst hc; decide) hseg
  rw [cleanA] at hback
  exact noTab_mapST _ (mem_of_segIn_single hback)

theorem noStSt_cleanChars {x : List Char} (h : NoDeleted x) :
    NoStSt (cleanChars x) := by
  rw [cleanChars_eq_of_noDeleted h]
  intro a b hab
  by_cases ha : isSpaceTab a = true
  · by_cases hb : isSpaceTab b = true
    · exfalso
      have hback := segIn_st_back (by simp)
        (by intro c hc
            rcases List.mem_cons.mp hc with rfl | hc2
            · exact ha
            · simp at hc2
              subst hc2
              exact hb) hab
      rw [cleanA] at hback
      rcases noStSt_mapST _ a b hback with hx | hx
      · rw [ha] at hx
        cases hx
      · rw [hb] at hx
        cases hx
    · right
      cases hx : isSpaceTab b with
      | false => rfl
      | true => exact absurd hx hb
  · left
    cases hx : isSpaceTab a with
    | false => rfl
    | true => exact absurd hx ha

theorem noDots4_cleanChars {x : List Char} (h : NoDeleted x) :
    NoDots4 (cleanChars x) := by
  rw [cleanChars_eq_of_noDeleted h]
  intro hseg
  have h1 := segIn_nlFree_cleanC (by simp) (by decide) (fun c => c = '.')
    (by intro c hc; simp at hc; simp [hc])
    (by intro c hc
        by_cases h2 : c = '.'
        · rw [h2] at hc
          rw [show isJsWs '.' = false from by decide] at hc
          cases hc
        · simp [h2]) hseg
  have h2 := segIn_pure_mapRuns_disjoint (fun c => c = '.') (fun c => c = '_')
    (by intro c hc; simp at hc; subst hc; decide) runPreserving_und (by simp)
    (by intro c hc; simp at hc; simp [hc]) h1
  have h3 := segIn_pure_mapRuns_disjoint (fun c => c = '.') (fun c => c = '-')
    (by intro c hc; simp at hc; subst hc; decide) runPreserving_dash (by simp)
    (by intro c hc; simp at hc; simp [hc]) h2
  exact noDots4_mapDots (cleanA x) h3

theorem noDash3_cleanChars {x : List Char} (h : NoDeleted x) :
    NoDash3 (cleanChars x) := by
  rw [cleanChars_eq_of_noDeleted h]
  intro hseg
  have h1 := segIn_nlFree_cleanC (by simp) (by decide) (fun c => c = '-')
    (by intro c hc; simp at hc; simp [hc])
    (by intro c hc
        by_cases h2 : c = '-'
        · rw [h2] at hc
          rw [show isJsWs '-' = false from by decide] at hc
          cases hc
        · simp [h2]) hseg
  have h2 := segIn_pure_mapRuns_disjoint (fun c => c = '-') (fun c => c = '_')
    (by intro c hc; simp at hc; subst hc; decide) runPreserving_und (by simp)
    (by intro c hc; simp at hc; simp [hc]) h1
  exact noDash3_mapDash (mapRuns (fun c => c = '.') dotsRep (cleanA x)) h2

theorem noUnd3_cleanChars {x : List Char} (h : NoDeleted x) :
    NoUnd3 (cleanChars x) := by
  rw [cleanChars_eq_of_noDeleted h]
  intro hseg
  have h1 := segIn_nlFree_cleanC (by simp) (by decide) (fun c => c = '_')
    (by intro c hc; simp at hc; simp [hc])
    (by intro c hc
        by_cases h2 : c = '_'
        · rw [h2] at hc
          rw [show isJsWs '_' = false from by decide] at hc
          cases hc
        · simp [h2]) hseg
  exact noUnd3_mapUnd
    (mapRuns (fun c => c = '-') dashRep
      (mapRuns (fun c => c = '.') dotsRep (cleanA x))) h1

theorem noNl3_cleanChars (x : List Char) : NoNl3 (cleanChars x) := by
  rw [cleanChars_decomp, cleanC]
  intro hseg
  exact noNl3_mapWsNl _ (segIn_trans hseg (segIn_jsTrim _))

theorem noMix_cleanChars (x : List Char) : NoMixWs (cleanChars x) := by
  rw [cleanChars_decomp, cleanC]
  exact noMix_of_segIn (noMix_mapWsNl (noMix_trimLines _)) (segIn_jsTrim _)

theorem headNonWs_cleanChars (x : List Char) :
    HeadNonWs (cleanChars x) := by
  rw [cleanChars_decomp, cleanC]
  exact headNonWs_jsTrim _

theorem lastNonWs_cleanChars (x : List Char) :
    LastNonWs (cleanChars x) := by
  rw [cleanChars_decomp, cleanC]
  exact lastNonWs_jsTrim _

/-! ### The cleaner is idempotent on undeleted character lists -/

theorem cleanChars_idem {x : List Char} (h : NoDeleted x) :
    cleanChars (cleanChars x) = cleanChars x := by
  have hF := noDeleted_cleanChars h
  have htab := noTab_cleanChars h
  have hss := noStSt_cleanChars h
  have hnl3 := noNl3_cleanChars x
  have hdots := noDots4_cleanChars h
  have hdash := noDash3_cleanChars h
  have hund := noUnd3_cleanChars h
  have hmix := noMix_cleanChars x
  have hhead := headNonWs_cleanChars x
  have hlast := lastNonWs_cleanChars x
  set F := cleanChars x with hFdef
  have est : mapRuns isSpaceTab stRep F = F :=
    mapRuns_noop _ _ _ (stRep_noop htab hss)
  have enl : mapRuns isNewline nl3Rep F = F :=
    mapRuns_noop _ _ _ (nl3Rep_noop hnl3)
  have eA : cleanA F = F := by
    rw [cleanA, est, enl, est]
  have eB : cleanB F = F := by
    rw [cleanB_eq hF]
    rw [mapRuns_noop _ _ _ (dotsRep_noop hdots),
        mapRuns_noop _ _ _ (dashRep_noop hdash),
        mapRuns_noop _ _ _ (undRep_noop hund)]
  have eC : cleanC F = F := by
    rw [cleanC,
      trimLines_eq_self hmix (fun c hc => Or.inl (hhead c hc))
        (fun c hc => Or.inl (hlast c hc)),
      mapRuns_noop _ _ _ (wsNlRep_noop hmix hnl3),
      jsTrim_eq_self hhead hlast]
  rw [cleanChars_decomp F, eA, eB, eC]

/-! ### The amended C5 claim and its witness -/

set_option maxHeartbeats 2000000 in
/-- C5 (amended): `cleanTextForEmbedding` is idempotent on every string
that contains none of the characters it deletes outright (the control
characters, zero-width characters and decorative glyphs of its three
deletion steps): for such `s`,
`cleanTextForEmbedding (cleanTextForEmbedding s) = cleanTextForEmbedding s`.
The literal claim over all strings is refuted by
the deletion-after-collapse counterexample above. -/
theorem cleanTextForEmbedding_idempotent_on_undeleted (s : String)
    (h : NoDeleted s.data) :
    cleanTextForEmbedding (cleanTextForEmbedding s) = cleanTextForEmbedding s := by
  have hempty : cleanTextForEmbedding "" = "" := by
    rw [cleanTextForEmbedding, if_pos rfl]
  by_cases hs : s = ""
  · subst hs
    rw [hempty, hempty]
  · have e1 : cleanTextForEmbedding s = ⟨cleanChars s.data⟩ := by
      rw [cleanTextForEmbedding, if_neg hs]
    by_cases h2 : (⟨cleanChars s.data⟩ : String) = ""
    · rw [e1, h2, hempty]
    · rw [e1, cleanTextForEmbedding, if_neg h2,
        show (⟨cleanChars s.data⟩ : String).data = cleanChars s.data from rfl,
        cleanChars_idem h]

/-- Witness for the amended C5 claim: the concrete string
`"Hi!\n\nSee  notes...\tok"` contains no deleted character and the
cleaner is idempotent on it (both facts evaluated). -/
theorem cleanTextForEmbedding_idempotent_on_undeleted_witness :
    NoDeleted ("Hi!\n\nSee  notes...\tok").data ∧
      cleanTextForEmbedding (cleanTextForEmbedding "Hi!\n\nSee  notes...\tok") =
        cleanTextForEmbedding "Hi!\n\nSee  notes...\tok" :=
  ⟨by rw [NoDeleted]; decide,
   cleanTextForEmbedding_idempotent_on_undeleted "Hi!\n\nSee  notes...\tok"
     (by rw [NoDeleted]; decide)⟩
